import Mathlib

/-!
Shallow embedding of the poly-multiproof library (KZG-style multi-point,
multi-polynomial opening proofs).

The pairing groups are modelled in exponent form: an element `g1^a` of the
cyclic group G1 is represented by its discrete logarithm `a : F` with respect
to the fixed generator, likewise for G2, and the bilinear pairing
`e(g1^a, g2^b) = e(g1,g2)^(a*b)` is represented by the product `a * b` in `F`.
All group operations used by the library (addition, scalar multiplication,
MSM, pairing-equality checks) are linear, so this representation is faithful.

Polynomials are coefficient lists, index = degree, as in the Rust
`DensePolynomial` (we do not maintain the trimmed-trailing-zero invariant; the
library's observable outputs in this model are field elements, which do not
depend on trailing zero coefficients).

Fallible Rust functions return `RustResult`, which distinguishes `ok`,
caller-visible `err`, and uncatchable `panic` (Rust `panic!`/`todo!()`/
out-of-range indexing/`expect`).

Helper functions from the crate root (`lib.rs`: `gen_powers`,
`gen_curve_powers`, `linear_combination`, `vanishing_polynomial`,
`poly_div_q_r`, `curve_msm`, `transcribe_points_and_evals`, `get_challenge`,
size checks), `lagrange.rs` and `poly_ops.rs` are not part of the provided
sources; they are modelled from the specification, as marked on each
definition.
-/

namespace PMP

variable {F : Type} [Field F] [DecidableEq F]

/-- Error variants, following the crate's `Error` enum as used by the provided
sources (`NoPolynomialsGiven`, `NoPointsGiven`, `TooManyScalars`,
`DomainConstructionFailed`) together with modelled variants for the
spec's SizeMismatch/ConstructionError taxonomy used by the helpers that are
outside the provided sources. -/
inductive Error where
  | noPolynomialsGiven
  | noPointsGiven
  | tooManyScalars (nCoeffs expectedMax : Nat)
  | domainConstructionFailed (n : Nat)
  | divisorIsZero
  | evalsIncorrectSize
  | evalsAndPolysDifferentSizes
  | commitsEvalsDifferentSizes
  | pointsNotDistinct
  deriving DecidableEq

/-- Outcome of running a fallible Rust function: a value, a caller-visible
`Err`, or an uncatchable fault (`panic!` / `todo!()` / out-of-bounds indexing /
`expect` on `None`). -/
inductive RustResult (α : Type) where
  | ok (a : α)
  | err (e : Error)
  | panic
  deriving DecidableEq

def RustResult.bind {α β : Type} (x : RustResult α) (f : α → RustResult β) : RustResult β :=
  match x with
  | .ok a => f a
  | .err e => .err e
  | .panic => .panic

instance : Monad RustResult where
  pure := RustResult.ok
  bind := RustResult.bind

/-- Rust `?` on an `Option` with `ok_or`. -/
def okOr {α : Type} (x : Option α) (e : Error) : RustResult α :=
  match x with
  | some a => .ok a
  | none => .err e

/-- Rust `.expect(..)` on an `Option`: panics on `None`. -/
def expectSome {α : Type} (x : Option α) : RustResult α :=
  match x with
  | some a => .ok a
  | none => .panic

/-- Rust slice indexing `l[i]`: panics when out of range. -/
def listGetOrPanic {α : Type} (l : List α) (i : Nat) : RustResult α :=
  match l.get? i with
  | some a => .ok a
  | none => .panic

/-- Rust `collect::<Result<Vec<_>, Error>>()`: sequence a list of fallible
computations, stopping at the first error. -/
def collect {α β : Type} (f : α → RustResult β) : List α → RustResult (List β)
  | [] => .ok []
  | a :: l => (f a).bind fun b => (collect f l).bind fun bs => .ok (b :: bs)

/-! ### Transcript (external merlin transcript, modelled from the spec §4.7) -/

/-- An item appended to the Fiat-Shamir transcript: a domain-separation label
(byte list) or the fixed-width canonical encoding of one scalar.  Modelled
from the spec: the transcript is an append-only, order-sensitive accumulator;
we record the appended scalars themselves rather than their byte encodings
(the encoding is fixed-width and canonical, hence injective). -/
inductive TranscriptItem (F : Type) where
  | label (bytes : List Nat)
  | scalar (x : F)
  deriving DecidableEq

abbrev Transcript (F : Type) := List (TranscriptItem F)

/-- The byte string of the challenge label `b"open gamma"`. -/
def openGammaLabel : List Nat := [111, 112, 101, 110, 32, 103, 97, 109, 109, 97]

/-- Label under which points are transcribed. -/
def pointsLabel : List Nat := [112, 111, 105, 110, 116, 115]

/-- Label under which evaluations are transcribed. -/
def evalsLabel : List Nat := [101, 118, 97, 108, 115]

/-- Modelled from the spec: `get_field_size::<F>()`, the fixed byte width of a
canonically encoded scalar (32 for the BLS12-381 scalar field).  The value is
threaded through but never influences the model's behaviour. -/
def getFieldSize : Nat := 32

/-- The transcript state after appending, in a fixed deterministic order —
the points, then each evaluation vector in polynomial order, each scalar in
point order — under domain-separation labels. -/
def transcriptOf (t : Transcript F) (points : List F) (evals : List (List F)) :
    Transcript F :=
  t ++ (TranscriptItem.label pointsLabel :: points.map TranscriptItem.scalar)
    ++ (TranscriptItem.label evalsLabel ::
        (evals.map (fun row => row.map TranscriptItem.scalar)).flatten)

/-- Modelled from the spec (§4.7): `transcribe_points_and_evals` appends the
points and evaluations to the transcript in a fixed deterministic order.
Total in the model (its only Rust failure modes are serialization failures of
well-formed scalars, which cannot occur). -/
def transcribePointsAndEvals (t : Transcript F) (points : List F)
    (evals : List (List F)) (_fieldSizeBytes : Nat) : RustResult (Transcript F) :=
  .ok (transcriptOf t points evals)

/-! ### Scalar/polynomial helpers from `lib.rs` (modelled from the spec) -/

/-- Modelled from the spec: `gen_powers x n = [1, x, x^2, …, x^(n-1)]`. -/
def genPowers (x : F) (n : Nat) : List F :=
  (List.range n).map (fun i => x ^ i)

/-- Modelled from the spec: `gen_curve_powers(scalars, g)` scalar-multiplies
the group generator point `g` by each scalar (in exponent form: multiplies). -/
def genCurvePowers (scalars : List F) (g : F) : List F :=
  scalars.map (fun s => g * s)

/-- Coefficient-wise polynomial addition, padding with the shorter list. -/
def polyAdd : List F → List F → List F
  | [], q => q
  | p, [] => p
  | a :: p, b :: q => (a + b) :: polyAdd p q

/-- Scalar multiple of a coefficient list. -/
def polySmul (c : F) (p : List F) : List F := p.map (fun a => c * a)

/-- Polynomial product of coefficient lists. -/
def polyMul : List F → List F → List F
  | [], _ => []
  | a :: p, q => polyAdd (polySmul a q) (0 :: polyMul p q)

/-- Horner evaluation of a coefficient list. -/
def polyEval (p : List F) (x : F) : F := p.foldr (fun c acc => c + x * acc) 0

/-- Modelled from the spec (§4.3 steps 3–4): `linear_combination(polys,
scalars)` is `None` for an empty input and otherwise the coefficient-wise sum
`Σ scalars[i] · polys[i]` over the zipped lists (the callers generate one
scalar per polynomial). -/
def linearCombination (polys : List (List F)) (scalars : List F) : Option (List F) :=
  if polys.isEmpty then none
  else some ((List.zipWith polySmul scalars polys).foldr polyAdd [])

/-- Sum of pairwise products (the exponent-form value of a multi-scalar
multiplication). -/
def dotList (bases scalars : List F) : F :=
  (List.zipWith (fun b s => b * s) bases scalars).sum

/-- Modelled from the spec (§4.1/§4.2): `curve_msm(bases, scalars)` errors if
there are more scalars than SRS points and otherwise returns the
scalar-weighted sum of the bases. -/
def curveMsm (bases scalars : List F) : RustResult F :=
  if bases.length < scalars.length then
    .err (.tooManyScalars bases.length scalars.length)
  else .ok (dotList bases scalars)

/-- Monic product `Π (X − z)` over a list of roots, as a coefficient list. -/
def linFactorProd (roots : List F) : List F :=
  roots.foldr (fun z acc => polyMul [-z, 1] acc) [1]

/-- Modelled from the spec (§3): `vanishing_polynomial(points)` is the monic
polynomial whose roots are exactly the point set, of degree `|points|`. -/
def vanishingPolynomial (points : List F) : List F := linFactorProd points

/-- One step list of dense polynomial long division, working on the reversed
(leading-coefficient-first) coefficient list: structurally recursive in an
explicit fuel so that it evaluates by kernel reduction.  `cInv` is the inverse
of the divisor's leading coefficient and `gtail` the rest of its reversed
coefficients.  Returns (reversed quotient, reversed remainder). -/
def divmodRevFuel (cInv : F) (gtail : List F) : Nat → List F → List F × List F
  | 0, frev => ([], frev)
  | _ + 1, [] => ([], [])
  | fuel + 1, a :: rest =>
    if rest.length < gtail.length then ([], a :: rest)
    else
      let qa := a * cInv
      let rest2 := (List.zipWith (fun u v => u - qa * v) (rest.take gtail.length) gtail)
        ++ rest.drop gtail.length
      let p := divmodRevFuel cInv gtail fuel rest2
      (qa :: p.1, p.2)

/-- Modelled from the spec: `poly_div_q_r(f, g)` performs polynomial Euclidean
division, returning quotient and remainder, and errors when the divisor is the
zero polynomial. -/
def polyDivQR (f g : List F) : RustResult (List F × List F) :=
  match g.reverse.dropWhile (fun c => c == 0) with
  | [] => .err .divisorIsZero
  | c :: gtail =>
    let p := divmodRevFuel c⁻¹ gtail f.reverse.length f.reverse
    .ok (p.1.reverse, p.2.reverse)

/-! ### Lagrange interpolation context (`lagrange.rs`, modelled from the spec §4.5) -/

/-- Numerator of the `j`-th Lagrange basis polynomial: `Π_{k ≠ j} (X − pts[k])`. -/
def lagBasisNumer (pts : List F) (j : Nat) : List F :=
  linFactorProd (pts.eraseIdx j)

/-- Denominator of the `j`-th Lagrange basis polynomial:
`Π_{k ≠ j} (pts[j] − pts[k])`. -/
def lagDenom (pts : List F) (j : Nat) : F :=
  ((pts.eraseIdx j).map (fun z => pts.getD j 0 - z)).prod

/-- Coefficient list of the unique polynomial of degree `< |pts|`
interpolating the values `ys` at the (distinct) points `pts`. -/
def lagInterp (pts ys : List F) : List F :=
  (List.range pts.length).foldr
    (fun j acc =>
      polyAdd (polySmul (ys.getD j 0 * (lagDenom pts j)⁻¹) (lagBasisNumer pts j)) acc) []

/-- Modelled from the spec (§4.5): per-point-set precomputed interpolation
structure.  Only the point set itself is observable in the model; the
precomputed barycentric data is a deterministic function of it. -/
structure LagrangeInterpContext (F : Type) where
  points : List F
  deriving DecidableEq

/-- Modelled from the spec (§4.5): building the context precomputes inverses
of pairwise point differences, which exist only when the points are pairwise
distinct; construction of the context fails otherwise. -/
def LagrangeInterpContext.newFromPoints (points : List F) :
    RustResult (LagrangeInterpContext F) :=
  if points.Nodup then .ok ⟨points⟩ else .err .pointsNotDistinct

/-- Modelled from the spec (§4.5): given `k` evaluation vectors (each of the
point-set's length) and `k` blending scalars, returns the coefficient vector
of the polynomial interpolating the blended evaluation vector; errors on an
evaluation vector of the wrong length. -/
def LagrangeInterpContext.lagrangeInterpLinearCombo (ctx : LagrangeInterpContext F)
    (evals : List (List F)) (gammas : List F) : RustResult (List F) :=
  if evals.all (fun e => e.length == ctx.points.length) then
    .ok (lagInterp ctx.points ((List.zipWith polySmul gammas evals).foldr polyAdd []))
  else .err .evalsIncorrectSize

/-! ### Base multiproof scheme `M1NoPrecomp` (`src/method1/mod.rs`) -/

/-- `M1NoPrecomp`: the SRS, in exponent form (`powers_of_g1[j]` is the
discrete log of the `j`-th G1 power, etc.).  The blst variant
(`m1_blst::M1NoPrecomp`) carries the same two power sequences plus a
preprocessed copy of the G1 powers for its MSM backend; by the spec (§4.2) the
two MSM backends produce identical group elements, so both variants share this
model and `prepped_g1s.msm` is `curveMsm` over `powers_of_g1`. -/
structure M1NoPrecomp (F : Type) where
  powers_of_g1 : List F
  powers_of_g2 : List F
  deriving DecidableEq

/-- `M1NoPrecomp::new_from_scalar`: generates `max(max_coeffs, max_pts+1)`
powers of `x`, commits all of them into G1 and the first `max_pts+1` into G2. -/
def M1NoPrecomp.newFromScalar (x g1 g2 : F) (maxCoeffs maxPts : Nat) : M1NoPrecomp F :=
  let nG2Powers := maxPts + 1
  let xPowers := genPowers x (max maxCoeffs nG2Powers)
  { powers_of_g1 := genCurvePowers xPowers g1
    powers_of_g2 := genCurvePowers (xPowers.take nG2Powers) g2 }

/-- `Committer::commit` for `M1NoPrecomp`: MSM of the G1 powers against the
coefficients. -/
def M1NoPrecomp.commit (S : M1NoPrecomp F) (poly : List F) : RustResult F :=
  curveMsm S.powers_of_g1 poly

/-- `M1NoPrecomp::open_with_vanishing_poly`.  The challenge derivation
`get_challenge` (external merlin transcript) is threaded in as the function
`chal`; the mutated transcript is returned alongside the proof (the Rust code
mutates the caller's transcript in place). -/
def M1NoPrecomp.openWithVanishingPoly (S : M1NoPrecomp F)
    (chal : Transcript F → List Nat → F) (t : Transcript F)
    (evals : List (List F)) (polys : List (List F)) (points : List F)
    (vp : List F) : RustResult (F × Transcript F) :=
  (transcribePointsAndEvals t points evals getFieldSize).bind fun t1 =>
  let gamma := chal t1 openGammaLabel
  let gammas := genPowers gamma S.powers_of_g1.length
  (okOr (linearCombination polys gammas) .noPolynomialsGiven).bind fun fsum =>
  (polyDivQR fsum vp).bind fun qr =>
  (curveMsm S.powers_of_g1 qr.1).bind fun pf =>
  .ok (pf, t1)

/-- `M1NoPrecomp::verify_with_lag_ctx_g2_zeros`.  The boolean is the combined
pairing-equality check `e(gamma_cm − gamma_ris, g2[0]) == e(proof, g2_zeros)`,
in exponent form. -/
def M1NoPrecomp.verifyWithLagCtxG2Zeros (S : M1NoPrecomp F)
    (chal : Transcript F → List Nat → F) (t : Transcript F)
    (commits : List F) (points : List F) (evals : List (List F)) (pf : F)
    (lagCtx : LagrangeInterpContext F) (g2Zeros : F) :
    RustResult (Bool × Transcript F) :=
  (transcribePointsAndEvals t points evals getFieldSize).bind fun t1 =>
  let gamma := chal t1 openGammaLabel
  let gammas := genPowers gamma evals.length
  (lagCtx.lagrangeInterpLinearCombo evals gammas).bind fun gammaRis =>
  (curveMsm S.powers_of_g1 gammaRis).bind fun gammaRisPt =>
  (curveMsm commits gammas).bind fun gammaCmPt =>
  (listGetOrPanic S.powers_of_g2 0).bind fun g2 =>
  .ok (decide ((gammaCmPt - gammaRisPt) * g2 = pf * g2Zeros), t1)

/-- `PolyMultiProofNoPrecomp::open` for `M1NoPrecomp`: computes the vanishing
polynomial of the points and delegates. -/
def M1NoPrecomp.openProof (S : M1NoPrecomp F) (chal : Transcript F → List Nat → F)
    (t : Transcript F) (evals : List (List F)) (polys : List (List F))
    (points : List F) : RustResult (F × Transcript F) :=
  let vp := vanishingPolynomial points
  S.openWithVanishingPoly chal t evals polys points vp

/-- `PolyMultiProofNoPrecomp::verify` for `M1NoPrecomp`: recomputes the
vanishing polynomial, its G2 commitment and the Lagrange context, then
delegates. -/
def M1NoPrecomp.verify (S : M1NoPrecomp F) (chal : Transcript F → List Nat → F)
    (t : Transcript F) (commits : List F) (points : List F)
    (evals : List (List F)) (pf : F) : RustResult (Bool × Transcript F) :=
  let vp := vanishingPolynomial points
  (curveMsm S.powers_of_g2 vp).bind fun g2Zeros =>
  (LagrangeInterpContext.newFromPoints points).bind fun lagCtx =>
  S.verifyWithLagCtxG2Zeros chal t commits points evals pf lagCtx g2Zeros

/-! ### Generic precomputed scheme `M1Precomp` (`src/method1/precompute.rs`) -/

/-- `M1Precomp`: inner scheme plus per-point-set precomputed tables. -/
structure M1Precomp (F : Type) where
  inner : M1NoPrecomp F
  point_sets : List (List F)
  vanishing_polys : List (List F)
  g2_zeros : List F
  lagrange_ctxs : List (LagrangeInterpContext F)
  deriving DecidableEq

/-- `M1Precomp::from_inner`: precompute, per point set, the vanishing
polynomial, its G2 commitment, and a Lagrange interpolation context. -/
def M1Precomp.fromInner (inner : M1NoPrecomp F) (pointSets : List (List F)) :
    RustResult (M1Precomp F) :=
  let vps := pointSets.map vanishingPolynomial
  (collect (fun p => curveMsm inner.powers_of_g2 p) vps).bind fun g2zs =>
  (collect (fun ps => LagrangeInterpContext.newFromPoints ps) pointSets).bind fun lcs =>
  .ok { inner := inner, point_sets := pointSets, vanishing_polys := vps,
        g2_zeros := g2zs, lagrange_ctxs := lcs }

/-- `PolyMultiProof::open` for `M1Precomp`: indexes the cached point set and
vanishing polynomial directly (Rust `self.point_sets[point_set_index]`, which
panics when the index is out of range) and delegates. -/
def M1Precomp.openProof (P : M1Precomp F) (chal : Transcript F → List Nat → F)
    (t : Transcript F) (evals : List (List F)) (polys : List (List F))
    (pointSetIndex : Nat) : RustResult (F × Transcript F) :=
  (listGetOrPanic P.point_sets pointSetIndex).bind fun pts =>
  (listGetOrPanic P.vanishing_polys pointSetIndex).bind fun vp =>
  P.inner.openWithVanishingPoly chal t evals polys pts vp

/-- `PolyMultiProof::verify` for `M1Precomp`: indexes the cached tables
directly (panicking when the index is out of range) and delegates. -/
def M1Precomp.verify (P : M1Precomp F) (chal : Transcript F → List Nat → F)
    (t : Transcript F) (commits : List F) (pointSetIndex : Nat)
    (evals : List (List F)) (pf : F) : RustResult (Bool × Transcript F) :=
  (listGetOrPanic P.point_sets pointSetIndex).bind fun pts =>
  (listGetOrPanic P.lagrange_ctxs pointSetIndex).bind fun lagCtx =>
  (listGetOrPanic P.g2_zeros pointSetIndex).bind fun g2z =>
  P.inner.verifyWithLagCtxG2Zeros chal t commits pts evals pf lagCtx g2z

/-! ### Coset / FFT domain-splitting layer (`src/m1_blst/cyclic_precomp.rs`) -/

/-- `is_power_of_two` from `cyclic_precomp.rs`. -/
def isPowerOfTwo (n : Nat) : Bool := n != 0 && (n &&& (n - 1)) == 0

/-- Modelled from the spec (§3, §4.6): one coset of the split evaluation
domain, as exposed by the external FFT library (`Radix2EvaluationDomain`).
`elements` are the coset's points in evaluation order; the coset's vanishing
polynomial has the closed form `X^size − offsetPow` with `offsetPow` the
`size`-th power of the coset offset. -/
structure CosetDomain (F : Type) where
  size : Nat
  offsetPow : F
  elements : List F
  deriving DecidableEq

/-- `ev_points` (from `poly_ops.rs`, modelled from the spec): the list of the
domain's evaluation points. -/
def evPoints (d : CosetDomain F) : List F := d.elements

/-- The sparse coefficient list (index, coefficient) of the coset's vanishing
polynomial `X^size − offsetPow`, as iterated by `from_inner`'s G2 loop. -/
def CosetDomain.vanishingSparse (d : CosetDomain F) : List (Nat × F) :=
  [(0, -d.offsetPow), (d.size, 1)]

/-- The dense coefficient list of the coset's vanishing polynomial. -/
def CosetDomain.vanishingDense (d : CosetDomain F) : List F :=
  ((List.range d.size).map (fun i => if i = 0 then -d.offsetPow else 0)) ++ [1]

/-- Modelled from the spec: `DensePolynomial::divide_by_vanishing_poly`
(external ark-poly) divides by the domain's sparse vanishing polynomial,
returning quotient and remainder (`None` never occurs for a well-formed
domain; we map the division's impossible zero-divisor error to `none`). -/
def divideByVanishingPoly (f : List F) (d : CosetDomain F) : Option (List F × List F) :=
  match polyDivQR f d.vanishingDense with
  | .ok qr => some qr
  | _ => none

/-- Modelled from the spec: inverse FFT over the coset computes the
coefficients of the polynomial interpolating the given evaluations at the
coset's points (valid because the opened point set is exactly the coset). -/
def cosetIfft (d : CosetDomain F) (evals : List F) : List F :=
  lagInterp d.elements evals

/-- Modelled from the spec (§3, §4.6): the split evaluation domain — a
power-of-two base domain of size `base_size` factored into `num` disjoint
cosets, exposed so callers can map base-domain indices to (coset, intra-coset)
indices. -/
structure SplitEvalDomain (F : Type) where
  base_size : Nat
  num : Nat
  subgroups_list : List (CosetDomain F)
  deriving DecidableEq

/-- Modelled from the spec (§4.6): `SplitEvalDomain::new(base_size, num)`
builds the base FFT domain and its `num` coset sub-domains.  `ω` is the
`base_size`-th root of unity supplied by the external field implementation;
coset `i` consists of the points `ω^(i + num·j)` and its vanishing polynomial
is `X^(base_size/num) − ω^(i·(base_size/num))`. -/
def SplitEvalDomain.new (ω : F) (baseSize num : Nat) : Option (SplitEvalDomain F) :=
  if isPowerOfTwo baseSize && isPowerOfTwo num && decide (num ≤ baseSize) then
    let m := baseSize / num
    some { base_size := baseSize, num := num,
           subgroups_list := (List.range num).map (fun i =>
             { size := m, offsetPow := ω ^ (i * m),
               elements := (List.range m).map (fun j => ω ^ (i + num * j)) }) }
  else none

/-- `SplitEvalDomain::subgroups`. -/
def SplitEvalDomain.subgroups (sd : SplitEvalDomain F) : List (CosetDomain F) :=
  sd.subgroups_list

/-- `M1CyclPrecomp` from `cyclic_precomp.rs`: blst-optimized scheme whose
point sets are the cosets of a split power-of-two evaluation domain. -/
structure M1CyclPrecomp (F : Type) where
  inner : M1NoPrecomp F
  split_domain : SplitEvalDomain F
  point_set_groups : List (CosetDomain F)
  num_point_sets : Nat
  base_size : Nat
  g2_zeros : List F
  deriving DecidableEq

/-- The sparse-MSM loop inside `M1CyclPrecomp::from_inner` committing one
coset vanishing polynomial into G2: iterates the sparse (index, coefficient)
pairs, failing with `TooManyScalars` (whose `n_coeffs` field is — as in the
source — `powers_of_g1.len()`) when an index exceeds the G2 powers. -/
def g2ZeroOf (inner : M1NoPrecomp F) (coeffs : List (Nat × F)) : RustResult F :=
  coeffs.foldl
    (fun acc ip =>
      acc.bind fun a =>
        match inner.powers_of_g2.get? ip.1 with
        | some b => .ok (a + b * ip.2)
        | none => .err (.tooManyScalars inner.powers_of_g1.length (ip.1 + 1)))
    (.ok 0)

/-- `M1CyclPrecomp::from_inner`: `todo!()` (an uncatchable panic, modelled as
`.panic`) when `base_size` or `num_point_sets` is not a power of two; a
`DomainConstructionFailed` error when the SRS G1 sequence is shorter than
`base_size` or the split domain cannot be built; otherwise precomputes the
coset vanishing polynomials' G2 commitments.  `ω` is the root of unity
supplied by the external field implementation (see `SplitEvalDomain.new`). -/
def M1CyclPrecomp.fromInner (ω : F) (inner : M1NoPrecomp F)
    (baseSize numPointSets : Nat) : RustResult (M1CyclPrecomp F) :=
  if !isPowerOfTwo baseSize || !isPowerOfTwo numPointSets then .panic
  else if inner.powers_of_g1.length < baseSize then
    .err (.domainConstructionFailed baseSize)
  else
    match SplitEvalDomain.new ω baseSize numPointSets with
    | none => .err (.domainConstructionFailed inner.powers_of_g1.length)
    | some sd =>
      let psg := sd.subgroups
      let vps := psg.map CosetDomain.vanishingSparse
      (collect (fun p => g2ZeroOf inner p) vps).bind fun g2zs =>
      .ok { inner := inner, base_size := baseSize, split_domain := sd,
            point_set_groups := psg, num_point_sets := numPointSets,
            g2_zeros := g2zs }

/-- Modelled from the spec (§7 SizeMismatch): `check_opening_sizes` validates
that there is one evaluation vector per polynomial and that every evaluation
vector has the point-set's length. -/
def checkOpeningSizes (evals polys : List (List F)) (n : Nat) : RustResult Unit :=
  if evals.length ≠ polys.length then .err .evalsAndPolysDifferentSizes
  else if evals.any (fun e => e.length != n) then .err .evalsIncorrectSize
  else .ok ()

/-- Modelled from the spec (§7 SizeMismatch): `check_verify_sizes` validates
that there is one commitment per evaluation vector and that every evaluation
vector has the point-set's length. -/
def checkVerifySizes (commits : List F) (evals : List (List F)) (n : Nat) :
    RustResult Unit :=
  if commits.length ≠ evals.length then .err .commitsEvalsDifferentSizes
  else if evals.any (fun e => e.length != n) then .err .evalsIncorrectSize
  else .ok ()

/-- `check_pairings_equal` from `fast_msm` (modelled from the spec §6: the
combined pairing-equality capability), in exponent form. -/
def checkPairingsEqual (lhsg1 lhsg2 rhsg1 rhsg2 : F) : Bool :=
  decide (lhsg1 * lhsg2 = rhsg1 * rhsg2)

/-- `PolyMultiProof::open` for `M1CyclPrecomp`: size checks, point-set lookup
(`Err(NoPointsGiven)` on an unknown index), transcription, challenge, batched
polynomial, division by the coset vanishing polynomial
(`.expect("This always succeeds")` — a panic on `None`), and the proof MSM. -/
def M1CyclPrecomp.openProof (P : M1CyclPrecomp F)
    (chal : Transcript F → List Nat → F) (t : Transcript F)
    (evals : List (List F)) (polys : List (List F)) (pointSetIndex : Nat) :
    RustResult (F × Transcript F) :=
  (checkOpeningSizes evals polys (P.base_size / P.num_point_sets)).bind fun _ =>
  (okOr (P.point_set_groups.get? pointSetIndex) .noPointsGiven).bind fun subgroup =>
  let points := evPoints subgroup
  (transcribePointsAndEvals t points evals getFieldSize).bind fun t1 =>
  let gamma := chal t1 openGammaLabel
  let gammas := genPowers gamma P.inner.powers_of_g1.length
  (okOr (linearCombination polys gammas) .noPolynomialsGiven).bind fun fsum =>
  (expectSome (divideByVanishingPoly fsum subgroup)).bind fun qr =>
  (curveMsm P.inner.powers_of_g1 qr.1).bind fun pf =>
  .ok (pf, t1)

/-- `PolyMultiProof::verify` for `M1CyclPrecomp`: size checks, point-set
lookup (`Err(NoPointsGiven)` on an unknown index), transcription, challenge,
blended evaluations (`.expect("TODO")` — a panic on `None`), inverse FFT
interpolation, the two MSMs, the direct indexings `powers_of_g2[0]` and
`g2_zeros[point_set_index]`, and the combined pairing check. -/
def M1CyclPrecomp.verify (P : M1CyclPrecomp F)
    (chal : Transcript F → List Nat → F) (t : Transcript F)
    (commits : List F) (pointSetIndex : Nat) (evals : List (List F)) (pf : F) :
    RustResult (Bool × Transcript F) :=
  (checkVerifySizes commits evals (P.base_size / P.num_point_sets)).bind fun _ =>
  (okOr (P.point_set_groups.get? pointSetIndex) .noPointsGiven).bind fun subgroup =>
  let points := evPoints subgroup
  (transcribePointsAndEvals t points evals getFieldSize).bind fun t1 =>
  let gamma := chal t1 openGammaLabel
  let gammas := genPowers gamma evals.length
  (expectSome (linearCombination evals gammas)).bind fun gammaRisEvals =>
  let gammaRis := cosetIfft subgroup gammaRisEvals
  (curveMsm P.inner.powers_of_g1 gammaRis).bind fun gammaRisPt =>
  (curveMsm commits gammas).bind fun gammaCmPt =>
  (listGetOrPanic P.inner.powers_of_g2 0).bind fun g2 =>
  (listGetOrPanic P.g2_zeros pointSetIndex).bind fun rhsg2 =>
  .ok (checkPairingsEqual (gammaCmPt - gammaRisPt) g2 pf rhsg2, t1)

/-! ### Auxiliary notions used only by the proofs -/

/-- Horner evaluation of a reversed (leading-coefficient-first) coefficient
list; `evalRev p.reverse x = polyEval p x`.  Used to state facts about the
long division `divmodRevFuel`, which works on reversed lists. -/
def evalRev (l : List F) (x : F) : F := l.foldl (fun acc a => acc * x + a) 0

/-- Interpretation of a coefficient list as a Mathlib polynomial, used to
borrow root-counting arguments. -/
noncomputable def toPoly : List F → Polynomial F
  | [] => 0
  | a :: l => Polynomial.C a + Polynomial.X * toPoly l

end PMP

/-! ### A concrete 3-element field for concrete evaluations -/

/-- The field with three elements, with pattern-matched arithmetic so that
every operation (inversion included) evaluates by kernel reduction. -/
inductive F3 where
  | z
  | o
  | t
  deriving DecidableEq, Fintype

def F3.add : F3 → F3 → F3
  | .z, b => b
  | a, .z => a
  | .o, .o => .t
  | .o, .t => .z
  | .t, .o => .z
  | .t, .t => .o

def F3.mul : F3 → F3 → F3
  | .z, _ => .z
  | _, .z => .z
  | .o, b => b
  | .t, .o => .t
  | .t, .t => .o

def F3.neg : F3 → F3
  | .z => .z
  | .o => .t
  | .t => .o

def F3.inv : F3 → F3
  | .z => .z
  | .o => .o
  | .t => .t

instance : Zero F3 := ⟨.z⟩

instance : One F3 := ⟨.o⟩

instance : Add F3 := ⟨F3.add⟩

instance : Mul F3 := ⟨F3.mul⟩

instance : Neg F3 := ⟨F3.neg⟩

instance : Inv F3 := ⟨F3.inv⟩

instance : Field F3 :=
  Field.ofMinimalAxioms F3 (by decide) (by decide) (by decide) (by decide)
    (by decide) (by decide) (by decide) (by decide) (by decide) ⟨.z, .o, by decide⟩

/-! ### Concrete fixtures over `F3` used by the closed instantiations -/

/-- A concrete challenge oracle returning the unit challenge. -/
def chalOne : PMP.Transcript F3 → List Nat → F3 := fun _ _ => F3.o

/-- A concrete challenge oracle returning the challenge 2. -/
def chalTwo : PMP.Transcript F3 → List Nat → F3 := fun _ _ => F3.t

/-- A concrete SRS over `F3`: secret scalar 2, generators 1 and 1,
`max_coeffs = 2`, `max_pts = 1` (so G1 powers `[1, 2]`, G2 powers `[1, 2]`). -/
def srs21 : PMP.M1NoPrecomp F3 := PMP.M1NoPrecomp.newFromScalar F3.t F3.o F3.o 2 1

/-- A concrete SRS over `F3` with `max_coeffs = 2`, `max_pts = 2` (G1 powers
`[1, 2, 1]`, G2 powers `[1, 2, 1]`). -/
def srs22 : PMP.M1NoPrecomp F3 := PMP.M1NoPrecomp.newFromScalar F3.t F3.o F3.o 2 2

/-- The generic precomputed scheme built from `srs21` and no point sets. -/
def preEmpty : PMP.M1Precomp F3 :=
  { inner := srs21, point_sets := [], vanishing_polys := [], g2_zeros := [],
    lagrange_ctxs := [] }

/-- The generic precomputed scheme built from `srs21` and the single point
set `[1]`. -/
def preOne : PMP.M1Precomp F3 :=
  { inner := srs21, point_sets := [[F3.o]],
    vanishing_polys := [PMP.vanishingPolynomial [F3.o]],
    g2_zeros := [F3.o], lagrange_ctxs := [⟨[F3.o]⟩] }

/-- The coset subgroup of size 2 of the split domain of base size 2 split
into one coset, for `ω = 2 = -1`. -/
def coset2 : PMP.CosetDomain F3 := { size := 2, offsetPow := F3.o, elements := [F3.o, F3.t] }

/-- The coset-precomputed scheme built from `srs22` with `base_size = 2`,
`num_point_sets = 1`, `ω = 2`. -/
def cycl21 : PMP.M1CyclPrecomp F3 :=
  { inner := srs22,
    split_domain := { base_size := 2, num := 1, subgroups_list := [coset2] },
    point_set_groups := [coset2], num_point_sets := 1, base_size := 2,
    g2_zeros := [F3.z] }

/-! ## Proofs -/

namespace PMP

variable {F : Type} [Field F] [DecidableEq F]

theorem bind_eq_ok {α β : Type} {x : RustResult α} {f : α → RustResult β} {b : β} :
    x.bind f = .ok b ↔ ∃ a, x = .ok a ∧ f a = .ok b := by
  cases x <;> simp [RustResult.bind]

theorem collect_ok_length {α β : Type} {f : α → RustResult β} :
    ∀ {l : List α} {bs : List β}, collect f l = .ok bs → bs.length = l.length := by
  intro l
  induction l with
  | nil => intro bs h; simp only [collect] at h; cases h; rfl
  | cons a l ih =>
    intro bs h
    simp only [collect] at h
    rcases bind_eq_ok.mp h with ⟨b1, _, h2⟩
    rcases bind_eq_ok.mp h2 with ⟨bs1, hbs1, h3⟩
    cases h3
    simp [ih hbs1]

theorem length_genPowers (x : F) (n : Nat) : (genPowers x n).length = n := by
  simp [genPowers]

theorem length_genCurvePowers (xs : List F) (g : F) :
    (genCurvePowers xs g).length = xs.length := by
  simp [genCurvePowers]

/-- C8: for every `max_coeffs`, `max_pts` and setup scalar, the scheme built
by `M1NoPrecomp::new_from_scalar` has a G1 power sequence of length exactly
`max(max_coeffs, max_pts + 1)` — in particular at least `max_coeffs` — and a
G2 power sequence of length exactly `max_pts + 1`. -/
theorem C8_newFromScalar_lengths (x g1 g2 : F) (maxCoeffs maxPts : Nat) :
    (M1NoPrecomp.newFromScalar x g1 g2 maxCoeffs maxPts).powers_of_g1.length
        = max maxCoeffs (maxPts + 1)
    ∧ maxCoeffs ≤ (M1NoPrecomp.newFromScalar x g1 g2 maxCoeffs maxPts).powers_of_g1.length
    ∧ (M1NoPrecomp.newFromScalar x g1 g2 maxCoeffs maxPts).powers_of_g2.length
        = maxPts + 1 := by
  refine ⟨?_, ?_, ?_⟩ <;>
    simp [M1NoPrecomp.newFromScalar, length_genCurvePowers, length_genPowers,
      Nat.le_max_left, Nat.succ_le_of_lt, Nat.min_eq_left, Nat.le_max_right]

/-- C3: the claim demands a caller-visible construction error for a
non-power-of-two `base_size`; the code instead executes `todo!()`, an
uncatchable panic.  Evaluating `from_inner` at the claim's own boundary input
`base_size = 255` yields a panic, not an error. -/
theorem C3_fromInner_255_panics :
    M1CyclPrecomp.fromInner F3.t srs22 255 1 = .panic := by decide

/-- C10: every `M1Precomp` produced by `from_inner` has its four cached
tables of equal length (the number of point sets), every `M1CyclPrecomp`
produced by `from_inner` has `point_set_groups` and `g2_zeros` both of length
`num_point_sets`, and consequently whenever the `point_set_groups` lookup in
`M1CyclPrecomp::verify` succeeds, the direct index into `g2_zeros` at the same
index is in range. -/
theorem C10_precomp_table_lengths :
    (∀ (inner : M1NoPrecomp F) (sets : List (List F)) (P : M1Precomp F),
      M1Precomp.fromInner inner sets = .ok P →
      P.point_sets.length = sets.length ∧ P.vanishing_polys.length = sets.length ∧
      P.g2_zeros.length = sets.length ∧ P.lagrange_ctxs.length = sets.length)
    ∧ (∀ (ω : F) (inner : M1NoPrecomp F) (b n : Nat) (Q : M1CyclPrecomp F),
      M1CyclPrecomp.fromInner ω inner b n = .ok Q →
      Q.point_set_groups.length = n ∧ Q.g2_zeros.length = n ∧
      (∀ (idx : Nat) (sg : CosetDomain F),
        Q.point_set_groups.get? idx = some sg → idx < Q.g2_zeros.length)) := by
  constructor
  · intro inner sets P h
    simp only [M1Precomp.fromInner] at h
    rcases bind_eq_ok.mp h with ⟨g2zs, hg2, h2⟩
    rcases bind_eq_ok.mp h2 with ⟨lcs, hlcs, h3⟩
    cases h3
    have h1 := collect_ok_length hg2
    have h4 := collect_ok_length hlcs
    simp only [List.length_map] at h1
    exact ⟨rfl, by simp, by simp [h1], by simp [h4]⟩
  · intro ω inner b n Q h
    simp only [M1CyclPrecomp.fromInner] at h
    split at h
    · exact absurd h (by simp)
    · split at h
      · exact absurd h (by simp)
      · rcases hsd : SplitEvalDomain.new ω b n with _ | sd
        · rw [hsd] at h; exact absurd h (by simp)
        · rw [hsd] at h
          rcases bind_eq_ok.mp h with ⟨g2zs, hg2, h2⟩
          cases h2
          have hlen : sd.subgroups.length = n := by
            simp only [SplitEvalDomain.new] at hsd
            split at hsd
            · cases hsd; simp [SplitEvalDomain.subgroups]
            · cases hsd
          have h1 := collect_ok_length hg2
          simp only [List.length_map] at h1
          refine ⟨hlen, by simp [h1, hlen], ?_⟩
          intro idx sg hget
          have hget2 : sd.subgroups.get? idx = some sg := hget
          have hx : idx < sd.subgroups.length := by
            rcases Nat.lt_or_ge idx sd.subgroups.length with hlt | hge
            · exact hlt
            · rw [List.get?_eq_none.mpr hge] at hget2; cases hget2
          show idx < g2zs.length
          omega

theorem C10_witness :
    preOne.point_sets.length = 1 ∧ preOne.g2_zeros.length = 1 ∧
    cycl21.point_set_groups.length = 1 ∧ cycl21.g2_zeros.length = 1 := by
  have h := C10_precomp_table_lengths (F := F3)
  obtain ⟨ha, hb, hc, _⟩ := h.1 srs21 [[F3.o]] preOne (by decide)
  obtain ⟨hd, he, _⟩ := h.2 F3.t srs22 2 1 cycl21 (by decide)
  exact ⟨ha, hc, hd, he⟩

theorem checkOpeningSizes_ok_or_err (evals polys : List (List F)) (n : Nat) :
    checkOpeningSizes evals polys n = .ok () ∨
      ∃ e, checkOpeningSizes evals polys n = .err e := by
  unfold checkOpeningSizes
  split
  · exact Or.inr ⟨_, rfl⟩
  · split
    · exact Or.inr ⟨_, rfl⟩
    · exact Or.inl rfl

theorem checkVerifySizes_ok_or_err (commits : List F) (evals : List (List F)) (n : Nat) :
    checkVerifySizes commits evals n = .ok () ∨
      ∃ e, checkVerifySizes commits evals n = .err e := by
  unfold checkVerifySizes
  split
  · exact Or.inr ⟨_, rfl⟩
  · split
    · exact Or.inr ⟨_, rfl⟩
    · exact Or.inl rfl

/-- C4 (amended): for the coset scheme `M1CyclPrecomp`, `open` and `verify`
with a point-set index at or beyond the number of precomputed point sets
return a caller-visible error; for the generic `M1Precomp`, however, `open`
and `verify` panic on such an index (Rust out-of-bounds slice indexing), so
the original claim holds only for the coset variant. -/
theorem C4_index_out_of_range_behaviour :
    (∀ (Q : M1CyclPrecomp F) (chal : Transcript F → List Nat → F) (t : Transcript F)
       (evals polys : List (List F)) (commits : List F) (pf : F) (idx : Nat),
       Q.point_set_groups.length ≤ idx →
       (∃ e, Q.openProof chal t evals polys idx = .err e) ∧
       (∃ e, Q.verify chal t commits idx evals pf = .err e))
    ∧ (∀ (P : M1Precomp F) (chal : Transcript F → List Nat → F) (t : Transcript F)
       (evals polys : List (List F)) (commits : List F) (pf : F) (idx : Nat),
       P.point_sets.length ≤ idx →
       P.openProof chal t evals polys idx = .panic ∧
       P.verify chal t commits idx evals pf = .panic) := by
  constructor
  · intro Q chal t evals polys commits pf idx hidx
    have hget : Q.point_set_groups.get? idx = none := List.get?_eq_none.mpr hidx
    have hgete : Q.point_set_groups[idx]? = none := List.getElem?_eq_none hidx
    constructor
    · rcases checkOpeningSizes_ok_or_err (F := F) evals polys
          (Q.base_size / Q.num_point_sets) with hc | ⟨e, hc⟩
      · exact ⟨.noPointsGiven,
          by simp [M1CyclPrecomp.openProof, hc, RustResult.bind, okOr, hget, hgete]⟩
      · exact ⟨e, by simp [M1CyclPrecomp.openProof, hc, RustResult.bind]⟩
    · rcases checkVerifySizes_ok_or_err (F := F) commits evals
          (Q.base_size / Q.num_point_sets) with hc | ⟨e, hc⟩
      · exact ⟨.noPointsGiven,
          by simp [M1CyclPrecomp.verify, hc, RustResult.bind, okOr, hget, hgete]⟩
      · exact ⟨e, by simp [M1CyclPrecomp.verify, hc, RustResult.bind]⟩
  · intro P chal t evals polys commits pf idx hidx
    have hget : P.point_sets.get? idx = none := List.get?_eq_none.mpr hidx
    have hgete : P.point_sets[idx]? = none := List.getElem?_eq_none hidx
    constructor
    · simp [M1Precomp.openProof, listGetOrPanic, hget, hgete, RustResult.bind]
    · simp [M1Precomp.verify, listGetOrPanic, hget, hgete, RustResult.bind]

/-- C4 counterexample: a generic precomputed scheme actually produced by
`from_inner`, whose `open`, called with an out-of-range point-set index, is an
uncatchable panic (Rust out-of-bounds indexing), not a caller-visible error,
refuting the claim for `M1Precomp`. -/
theorem C4_counterexample :
    M1Precomp.fromInner srs21 [] = .ok preEmpty
    ∧ M1Precomp.openProof preEmpty chalOne [] [] [] 0 = .panic
    ∧ M1Precomp.verify preEmpty chalOne [] [] 0 [] F3.z = .panic := by
  refine ⟨by decide, by decide, by decide⟩

theorem C4_witness :
    (∃ e, M1CyclPrecomp.openProof cycl21 chalOne [] [] [] 1 = .err e)
    ∧ (∃ e, M1CyclPrecomp.verify cycl21 chalOne [] [] 1 [] F3.z = .err e)
    ∧ M1Precomp.openProof preOne chalOne [] [] [] 5 = .panic
    ∧ M1Precomp.verify preOne chalOne [] [] 5 [] F3.z = .panic := by
  have h := C4_index_out_of_range_behaviour (F := F3)
  obtain ⟨h1, h2⟩ := h.1 cycl21 chalOne [] [] [] [] F3.z 1 (by decide)
  obtain ⟨h3, h4⟩ := h.2 preOne chalOne [] [] [] [] F3.z 5 (by decide)
  exact ⟨h1, h2, h3, h4⟩

theorem openWithVanishing_ok_transcript {S : M1NoPrecomp F}
    {chal : Transcript F → List Nat → F} {t : Transcript F}
    {evals polys : List (List F)} {points vp : List F} {pf : F} {t1 : Transcript F}
    (h : S.openWithVanishingPoly chal t evals polys points vp = .ok (pf, t1)) :
    transcribePointsAndEvals t points evals getFieldSize = .ok t1 := by
  simp only [M1NoPrecomp.openWithVanishingPoly, transcribePointsAndEvals,
    RustResult.bind] at h ⊢
  rcases bind_eq_ok.mp h with ⟨fsum, _, h2⟩
  rcases bind_eq_ok.mp h2 with ⟨qr, _, h3⟩
  rcases bind_eq_ok.mp h3 with ⟨pfv, _, h4⟩
  cases h4
  rfl

theorem verify_ok_transcript {S : M1NoPrecomp F}
    {chal : Transcript F → List Nat → F} {t : Transcript F}
    {commits points : List F} {evals : List (List F)} {pfv : F} {b : Bool}
    {t2 : Transcript F}
    (h : S.verify chal t commits points evals pfv = .ok (b, t2)) :
    transcribePointsAndEvals t points evals getFieldSize = .ok t2 := by
  simp only [M1NoPrecomp.verify] at h
  rcases bind_eq_ok.mp h with ⟨g2z, _, h2⟩
  rcases bind_eq_ok.mp h2 with ⟨ctx, _, h3⟩
  simp only [M1NoPrecomp.verifyWithLagCtxG2Zeros, transcribePointsAndEvals,
    RustResult.bind] at h3 ⊢
  rcases bind_eq_ok.mp h3 with ⟨gr, _, h4⟩
  rcases bind_eq_ok.mp h4 with ⟨grp, _, h5⟩
  rcases bind_eq_ok.mp h5 with ⟨gcp, _, h6⟩
  rcases bind_eq_ok.mp h6 with ⟨g2, _, h7⟩
  cases h7
  rfl

/-- C7: starting from identical transcript states, `open` and `verify` append
the same encoding of the same points and evaluation vectors in the same order
— their post-transcription transcript states are equal — and therefore derive
the same challenge scalar γ from the challenge oracle. -/
theorem C7_same_transcript_same_gamma
    (S : M1NoPrecomp F) (chal : Transcript F → List Nat → F) (t : Transcript F)
    (evals polys : List (List F)) (points commits : List F)
    (pf pfv : F) (t1 : Transcript F) (b : Bool) (t2 : Transcript F)
    (ho : S.openProof chal t evals polys points = .ok (pf, t1))
    (hv : S.verify chal t commits points evals pfv = .ok (b, t2)) :
    t1 = t2 ∧ chal t1 openGammaLabel = chal t2 openGammaLabel := by
  have h1 : transcribePointsAndEvals t points evals getFieldSize = .ok t1 :=
    openWithVanishing_ok_transcript
      (show S.openWithVanishingPoly chal t evals polys points
          (vanishingPolynomial points) = .ok (pf, t1) from ho)
  have h2 := verify_ok_transcript hv
  rw [h1] at h2
  have h3 : t1 = t2 := by cases h2; rfl
  exact ⟨h3, by rw [h3]⟩

theorem C7_witness :
    ([TranscriptItem.label pointsLabel, TranscriptItem.scalar F3.o,
      TranscriptItem.label evalsLabel, TranscriptItem.scalar F3.t]
      = [TranscriptItem.label pointsLabel, TranscriptItem.scalar F3.o,
         TranscriptItem.label evalsLabel, TranscriptItem.scalar F3.t])
    ∧ chalOne [TranscriptItem.label pointsLabel, TranscriptItem.scalar F3.o,
        TranscriptItem.label evalsLabel, TranscriptItem.scalar F3.t] openGammaLabel
      = chalOne [TranscriptItem.label pointsLabel, TranscriptItem.scalar F3.o,
          TranscriptItem.label evalsLabel, TranscriptItem.scalar F3.t] openGammaLabel :=
  C7_same_transcript_same_gamma srs21 chalOne [] [[F3.t]] [[F3.t]] [F3.o] [F3.t]
    F3.z F3.z _ true _ (by decide) (by decide)

/-! ### Evaluation lemmas for the polynomial helpers -/

theorem evalRev_nil (x : F) : evalRev [] x = 0 := rfl

theorem evalRev_foldl_acc (x : F) :
    ∀ (l : List F) (acc : F),
      l.foldl (fun acc a => acc * x + a) acc = acc * x ^ l.length + evalRev l x := by
  intro l
  induction l with
  | nil => intro acc; simp [evalRev]
  | cons a l ih =>
    intro acc
    have h1 : evalRev (a :: l) x = a * x ^ l.length + evalRev l x := by
      show l.foldl (fun acc a => acc * x + a) (0 * x + a) = _
      rw [ih (0 * x + a)]; ring
    show l.foldl (fun acc a => acc * x + a) (acc * x + a) = _
    rw [ih (acc * x + a), h1, List.length_cons, pow_succ]
    ring

theorem evalRev_cons (a : F) (l : List F) (x : F) :
    evalRev (a :: l) x = a * x ^ l.length + evalRev l x := by
  show l.foldl (fun acc a => acc * x + a) (0 * x + a) = _
  rw [evalRev_foldl_acc x l (0 * x + a)]; ring

theorem evalRev_append (l1 l2 : List F) (x : F) :
    evalRev (l1 ++ l2) x = evalRev l1 x * x ^ l2.length + evalRev l2 x := by
  show (l1 ++ l2).foldl (fun acc a => acc * x + a) 0 = _
  rw [List.foldl_append, evalRev_foldl_acc x l2]
  rfl

theorem evalRev_zipWith_sub (qa : F) (x : F) :
    ∀ (A B : List F), A.length = B.length →
      evalRev (List.zipWith (fun u v => u - qa * v) A B) x
        = evalRev A x - qa * evalRev B x := by
  intro A
  induction A with
  | nil =>
    intro B h
    have : B = [] := List.length_eq_zero.mp h.symm
    subst this; simp [evalRev]
  | cons a A ih =>
    intro B h
    match B with
    | [] => simp at h
    | b :: B =>
      simp only [List.length_cons, Nat.succ.injEq] at h
      simp only [List.zipWith_cons_cons]
      rw [evalRev_cons, evalRev_cons, evalRev_cons, ih B h, List.length_zipWith, h,
        Nat.min_self]
      ring

theorem polyEval_eq_evalRev (p : List F) (x : F) :
    polyEval p x = evalRev p.reverse x := by
  induction p with
  | nil => simp [polyEval, evalRev]
  | cons a p ih =>
    have h1 : evalRev [a] x = a := by
      show 0 * x + a = a
      ring
    calc polyEval (a :: p) x = a + x * polyEval p x := rfl
      _ = polyEval p x * x ^ ([a] : List F).length + evalRev [a] x := by
            rw [h1]
            show _ = polyEval p x * x ^ 1 + a
            ring
      _ = evalRev p.reverse x * x ^ ([a] : List F).length + evalRev [a] x := by rw [ih]
      _ = evalRev (p.reverse ++ [a]) x := (evalRev_append p.reverse [a] x).symm
      _ = evalRev (a :: p).reverse x := by rw [List.reverse_cons]

/-! ### Long-division correctness -/

theorem divmod_spec (x c cInv : F) (hc : c * cInv = 1) (gtail : List F) :
    ∀ (fuel : Nat) (frev : List F), frev.length ≤ fuel →
      evalRev frev x
          = evalRev ((divmodRevFuel cInv gtail fuel frev).1) x * evalRev (c :: gtail) x
            + evalRev ((divmodRevFuel cInv gtail fuel frev).2) x
      ∧ ((divmodRevFuel cInv gtail fuel frev).2).length ≤ gtail.length
      ∧ ((divmodRevFuel cInv gtail fuel frev).1).length = frev.length - gtail.length := by
  intro fuel
  induction fuel with
  | zero =>
    intro frev h
    have : frev = [] := List.length_eq_zero.mp (Nat.le_zero.mp h)
    subst this
    refine ⟨by simp [divmodRevFuel, evalRev], by simp [divmodRevFuel], by simp [divmodRevFuel]⟩
  | succ fuel ih =>
    intro frev h
    match frev with
    | [] =>
      refine ⟨by simp [divmodRevFuel, evalRev], by simp [divmodRevFuel], by simp [divmodRevFuel]⟩
    | a :: rest =>
      by_cases hlt : rest.length < gtail.length
      · simp only [divmodRevFuel, if_pos hlt]
        refine ⟨by rw [evalRev_nil]; ring, by simpa using hlt, ?_⟩
        simp [Nat.sub_eq_zero_of_le hlt]
      · have hD : gtail.length ≤ rest.length := Nat.le_of_not_lt hlt
        have hlen2 :
            ((List.zipWith (fun u v => u - a * cInv * v) (rest.take gtail.length) gtail)
              ++ rest.drop gtail.length).length = rest.length := by
          simp only [List.length_append, List.length_zipWith, List.length_take,
            List.length_drop]
          omega
        have hfuel :
            ((List.zipWith (fun u v => u - a * cInv * v) (rest.take gtail.length) gtail)
              ++ rest.drop gtail.length).length ≤ fuel := by
          rw [hlen2]
          have := h
          simp only [List.length_cons] at this
          omega
        obtain ⟨ih1, ih2, ih3⟩ := ih _ hfuel
        have e_take_drop :
            evalRev rest x
              = evalRev (rest.take gtail.length) x * x ^ (rest.length - gtail.length)
                + evalRev (rest.drop gtail.length) x := by
          conv_lhs => rw [← List.take_append_drop gtail.length rest]
          rw [evalRev_append, List.length_drop]
        have e_zip :
            evalRev (List.zipWith (fun u v => u - a * cInv * v)
                (rest.take gtail.length) gtail) x
              = evalRev (rest.take gtail.length) x - a * cInv * evalRev gtail x := by
          apply evalRev_zipWith_sub
          simp only [List.length_take]
          omega
        have e_rest2 :
            evalRev ((List.zipWith (fun u v => u - a * cInv * v)
                (rest.take gtail.length) gtail) ++ rest.drop gtail.length) x
              = evalRev rest x
                - a * cInv * evalRev gtail x * x ^ (rest.length - gtail.length) := by
          rw [evalRev_append, e_zip, List.length_drop, e_take_drop]
          ring
        simp only [divmodRevFuel, if_neg hlt]
        refine ⟨?_, ih2, ?_⟩
        · rw [evalRev_cons, evalRev_cons, evalRev_cons]
          rw [ih3, hlen2]
          rw [evalRev_cons] at ih1
          rw [e_rest2] at ih1
          have hxp : x ^ rest.length
              = x ^ (rest.length - gtail.length) * x ^ gtail.length := by
            rw [← pow_add, Nat.sub_add_cancel hD]
          rw [hxp]
          linear_combination ih1
            - (x ^ (rest.length - gtail.length) * x ^ gtail.length * a) * hc
        · simp only [List.length_cons]
          rw [ih3, hlen2]
          omega

/-! ### Structure of the vanishing polynomial and division by it -/

theorem polyAdd_nil_right (p : List F) : polyAdd p [] = p := by cases p <;> rfl

theorem length_polyAdd (p q : List F) : (polyAdd p q).length = max p.length q.length := by
  induction p generalizing q with
  | nil => simp [polyAdd]
  | cons a p ih =>
    cases q with
    | nil => rw [polyAdd_nil_right]; simp
    | cons b q =>
      show ((a + b) :: polyAdd p q).length = _
      simp only [List.length_cons, ih q]
      omega

theorem length_polySmul (c : F) (p : List F) : (polySmul c p).length = p.length := by
  simp [polySmul]

theorem polySmul_one (p : List F) : polySmul 1 p = p := by
  simp [polySmul]

theorem polyAdd_append_last (p q : List F) (u : F) (h : p.length ≤ q.length) :
    polyAdd p (q ++ [u]) = polyAdd p q ++ [u] := by
  induction p generalizing q with
  | nil => simp [polyAdd]
  | cons a p ih =>
    cases q with
    | nil => simp at h
    | cons b q =>
      show (a + b) :: polyAdd p (q ++ [u]) = ((a + b) :: polyAdd p q) ++ [u]
      rw [ih q (by simpa using h)]
      rfl

theorem polyMul_one_cons (v : List F) (hv : v ≠ []) : polyMul [(1 : F)] v = v := by
  show polyAdd (polySmul 1 v) (0 :: polyMul [] v) = v
  rw [polySmul_one]
  show polyAdd v [0] = v
  rcases List.exists_cons_of_ne_nil hv with ⟨a, v', rfl⟩
  show (a + 0) :: polyAdd v' [] = a :: v'
  rw [add_zero, polyAdd_nil_right]

theorem polyMul_linear (z : F) (v : List F) (hv : v ≠ []) :
    polyMul [-z, 1] v = polyAdd (polySmul (-z) v) (0 :: v) := by
  show polyAdd (polySmul (-z) v) (0 :: polyMul [1] v) = _
  rw [polyMul_one_cons v hv]

theorem linFactorProd_shape (roots : List F) :
    ∃ l : List F, linFactorProd roots = l ++ [1] ∧ l.length = roots.length := by
  induction roots with
  | nil => exact ⟨[], rfl, rfl⟩
  | cons z rs ih =>
    obtain ⟨l, hl, hlen⟩ := ih
    have h1 : linFactorProd (z :: rs) = polyMul [-z, 1] (linFactorProd rs) := rfl
    rw [h1, hl, polyMul_linear z (l ++ [1]) (by simp)]
    have h2 : (0 : F) :: (l ++ [1]) = ((0 : F) :: l) ++ [1] := rfl
    rw [h2, polyAdd_append_last _ _ _ (by simp [length_polySmul])]
    refine ⟨polyAdd (polySmul (-z) (l ++ [1])) (0 :: l), rfl, ?_⟩
    rw [length_polyAdd, length_polySmul]
    simp [hlen]

theorem polyDivQR_of_shape {g l : List F} (hg : g = l ++ [1]) (f : List F) :
    ∃ q r, polyDivQR f g = .ok (q, r) ∧ r.length ≤ l.length ∧ q.length ≤ f.length ∧
      ∀ x, polyEval f x = polyEval q x * polyEval g x + polyEval r x := by
  subst hg
  have hdw : ((l ++ [1] : List F).reverse).dropWhile (fun c => c == 0)
      = (1 : F) :: l.reverse := by
    rw [List.reverse_append]
    show List.dropWhile (fun c => c == 0) ((1 : F) :: l.reverse) = _
    rw [List.dropWhile_cons]
    simp [one_ne_zero]
  have hc : (1 : F) * (1 : F)⁻¹ = 1 := by rw [inv_one, mul_one]
  have hok : polyDivQR f (l ++ [1])
      = .ok (((divmodRevFuel (1 : F)⁻¹ l.reverse f.reverse.length f.reverse).1).reverse,
             ((divmodRevFuel (1 : F)⁻¹ l.reverse f.reverse.length f.reverse).2).reverse) := by
    simp only [polyDivQR, hdw]
  obtain ⟨_, hr, hq⟩ :=
    divmod_spec (0 : F) 1 (1 : F)⁻¹ hc l.reverse f.reverse.length f.reverse (le_refl _)
  refine ⟨_, _, hok, ?_, ?_, ?_⟩
  · simpa using hr
  · rw [List.length_reverse, hq]
    simp only [List.length_reverse]
    omega
  · intro x
    obtain ⟨he, _, _⟩ :=
      divmod_spec x 1 (1 : F)⁻¹ hc l.reverse f.reverse.length f.reverse (le_refl _)
    rw [polyEval_eq_evalRev f x, he]
    rw [polyEval_eq_evalRev, polyEval_eq_evalRev, polyEval_eq_evalRev,
      List.reverse_reverse, List.reverse_reverse]
    have hra : (l ++ [1] : List F).reverse = 1 :: l.reverse := by simp
    rw [hra]

theorem linearCombination_eq (polys : List (List F)) (s : List F) (h : polys ≠ []) :
    linearCombination polys s
      = some ((List.zipWith polySmul s polys).foldr polyAdd []) := by
  simp [linearCombination, h]

theorem length_zip_smul_fold_le (s : List F) (ps : List (List F)) (B : Nat)
    (h : ∀ p ∈ ps, p.length ≤ B) :
    ((List.zipWith polySmul s ps).foldr polyAdd []).length ≤ B := by
  induction ps generalizing s with
  | nil => simp
  | cons p ps ih =>
    cases s with
    | nil => simp
    | cons c s =>
      show (polyAdd (polySmul c p) ((List.zipWith polySmul s ps).foldr polyAdd [])).length ≤ B
      rw [length_polyAdd, length_polySmul]
      exact max_le (h p (by simp)) (ih s (fun p hp => h p (by simp [hp])))

theorem openWithVanishing_unfold (S : M1NoPrecomp F)
    (chal : Transcript F → List Nat → F) (t : Transcript F)
    (evals polys : List (List F)) (points vp : List F) :
    S.openWithVanishingPoly chal t evals polys points vp =
      (okOr (linearCombination polys
          (genPowers (chal (transcriptOf t points evals) openGammaLabel)
            S.powers_of_g1.length)) .noPolynomialsGiven).bind fun fsum =>
      (polyDivQR fsum vp).bind fun qr =>
      (curveMsm S.powers_of_g1 qr.1).bind fun pf =>
      .ok (pf, transcriptOf t points evals) := rfl

theorem openWithVanishing_total (S : M1NoPrecomp F)
    (chal : Transcript F → List Nat → F) (t : Transcript F)
    (evals polys : List (List F)) (points : List F) {vp l : List F}
    (hvp : vp = l ++ [1])
    (hne : polys ≠ [])
    (hdeg : ∀ p ∈ polys, p.length ≤ S.powers_of_g1.length) :
    ∃ pf, S.openWithVanishingPoly chal t evals polys points vp
      = .ok (pf, transcriptOf t points evals) := by
  rw [openWithVanishing_unfold, linearCombination_eq polys _ hne]
  obtain ⟨q, r, hdiv, _, hqlen, _⟩ := polyDivQR_of_shape hvp
    ((List.zipWith polySmul
      (genPowers (chal (transcriptOf t points evals) openGammaLabel)
        S.powers_of_g1.length) polys).foldr polyAdd [])
  simp only [okOr, RustResult.bind, hdiv]
  have hfit : ¬ S.powers_of_g1.length < q.length := by
    have h1 := length_zip_smul_fold_le
      (genPowers (chal (transcriptOf t points evals) openGammaLabel)
        S.powers_of_g1.length) polys S.powers_of_g1.length hdeg
    omega
  simp only [curveMsm, if_neg hfit, RustResult.bind]
  exact ⟨_, rfl⟩

/-- C9: `M1NoPrecomp::open` discards the division remainder: for every input
with at least one polynomial whose coefficient vectors fit the SRS, `open`
returns `Ok` with a proof — no error and no invariant check — regardless of
whether the supplied evaluations match the polynomials' values at the points
(the evaluations and points are arbitrary here). -/
theorem C9_open_ignores_remainder (S : M1NoPrecomp F)
    (chal : Transcript F → List Nat → F) (t : Transcript F)
    (evals polys : List (List F)) (points : List F)
    (hne : polys ≠ [])
    (hdeg : ∀ p ∈ polys, p.length ≤ S.powers_of_g1.length) :
    ∃ pf t1, S.openProof chal t evals polys points = .ok (pf, t1) := by
  obtain ⟨l, hl, _⟩ := linFactorProd_shape (F := F) points
  have hvp : vanishingPolynomial points = l ++ [1] := hl
  obtain ⟨pf, hpf⟩ := openWithVanishing_total S chal t evals polys points hvp hne hdeg
  exact ⟨pf, _, hpf⟩

theorem C9_witness :
    ∃ pf t1, PMP.M1NoPrecomp.openProof srs21 chalOne [] [[F3.o]] [[F3.t]] [F3.o]
      = .ok (pf, t1) :=
  C9_open_ignores_remainder srs21 chalOne [] [[F3.o]] [[F3.t]] [F3.o]
    (by decide) (by decide)

/-! ### Lookup facts for collected tables, and verify totality -/

theorem collect_ok_get {α β : Type} {f : α → RustResult β} :
    ∀ {l : List α} {bs : List β}, collect f l = .ok bs →
      ∀ {i : Nat} {a : α}, l.get? i = some a →
        ∃ b, bs.get? i = some b ∧ f a = .ok b := by
  intro l
  induction l with
  | nil => intro bs h i a ha; simp at ha
  | cons x l ih =>
    intro bs h i a ha
    simp only [collect] at h
    rcases bind_eq_ok.mp h with ⟨b0, hb0, h2⟩
    rcases bind_eq_ok.mp h2 with ⟨bs1, hbs1, h3⟩
    cases h3
    match i with
    | 0 =>
      have hax : x = a := by simpa using ha
      subst hax
      exact ⟨b0, rfl, hb0⟩
    | i + 1 =>
      have ha' : l.get? i = some a := by simpa using ha
      obtain ⟨b, hb, hfb⟩ := ih hbs1 ha'
      exact ⟨b, by simpa using hb, hfb⟩

theorem newFromPoints_ok (pts : List F) (h : pts.Nodup) :
    LagrangeInterpContext.newFromPoints pts = .ok ⟨pts⟩ := by
  simp [LagrangeInterpContext.newFromPoints, h]

theorem lagCombo_ok (ctx : LagrangeInterpContext F) (evals : List (List F))
    (gammas : List F) (h : ∀ e ∈ evals, e.length = ctx.points.length) :
    ctx.lagrangeInterpLinearCombo evals gammas
      = .ok (lagInterp ctx.points
          ((List.zipWith polySmul gammas evals).foldr polyAdd [])) := by
  unfold LagrangeInterpContext.lagrangeInterpLinearCombo
  rw [if_pos]
  exact List.all_eq_true.mpr fun e he => beq_iff_eq.mpr (h e he)

theorem length_foldr_polyAdd_le {α : Type} (L : List α) (f : α → List F) (B : Nat)
    (h : ∀ a ∈ L, (f a).length ≤ B) :
    (L.foldr (fun a acc => polyAdd (f a) acc) []).length ≤ B := by
  induction L with
  | nil => simp
  | cons a L ih =>
    show (polyAdd (f a) _).length ≤ B
    rw [length_polyAdd]
    exact max_le (h a (by simp)) (ih fun a ha => h a (by simp [ha]))

theorem length_lagInterp_le (pts ys : List F) :
    (lagInterp pts ys).length ≤ pts.length := by
  unfold lagInterp
  apply length_foldr_polyAdd_le
  intro j hj
  rw [length_polySmul]
  obtain ⟨l, hl, hlen⟩ := linFactorProd_shape (pts.eraseIdx j)
  unfold lagBasisNumer
  rw [hl]
  have hj' : j < pts.length := List.mem_range.mp hj
  have he : (pts.eraseIdx j).length = pts.length - 1 := by
    rw [List.length_eraseIdx]
    simp [hj']
  simp only [List.length_append, List.length_cons, List.length_nil, hlen, he]
  omega

theorem verifyWithLagCtx_unfold (S : M1NoPrecomp F)
    (chal : Transcript F → List Nat → F) (t : Transcript F)
    (commits points : List F) (evals : List (List F)) (pf : F)
    (lagCtx : LagrangeInterpContext F) (g2Zeros : F) :
    S.verifyWithLagCtxG2Zeros chal t commits points evals pf lagCtx g2Zeros =
      (lagCtx.lagrangeInterpLinearCombo evals
          (genPowers (chal (transcriptOf t points evals) openGammaLabel)
            evals.length)).bind fun gammaRis =>
      (curveMsm S.powers_of_g1 gammaRis).bind fun gammaRisPt =>
      (curveMsm commits
          (genPowers (chal (transcriptOf t points evals) openGammaLabel)
            evals.length)).bind fun gammaCmPt =>
      (listGetOrPanic S.powers_of_g2 0).bind fun g2 =>
      .ok (decide ((gammaCmPt - gammaRisPt) * g2 = pf * g2Zeros),
           transcriptOf t points evals) := rfl

theorem verifyWith_total (S : M1NoPrecomp F)
    (chal : Transcript F → List Nat → F) (t : Transcript F)
    (commits points : List F) (evals : List (List F)) (pf : F)
    (ctx : LagrangeInterpContext F) (g2z : F)
    (hctx : ctx.points = points)
    (hrows : ∀ e ∈ evals, e.length = points.length)
    (hg1 : points.length ≤ S.powers_of_g1.length)
    (hg2pos : 0 < S.powers_of_g2.length)
    (hcm : evals.length ≤ commits.length) :
    ∃ b, S.verifyWithLagCtxG2Zeros chal t commits points evals pf ctx g2z
      = .ok (b, transcriptOf t points evals) := by
  rw [verifyWithLagCtx_unfold]
  rw [lagCombo_ok ctx evals _ (by rw [hctx]; exact hrows)]
  have h1 : ¬ S.powers_of_g1.length <
      (lagInterp ctx.points
        ((List.zipWith polySmul
          (genPowers (chal (transcriptOf t points evals) openGammaLabel)
            evals.length) evals).foldr polyAdd [])).length := by
    have hb := length_lagInterp_le ctx.points
      ((List.zipWith polySmul
        (genPowers (chal (transcriptOf t points evals) openGammaLabel)
          evals.length) evals).foldr polyAdd [])
    have hb2 : ctx.points.length = points.length := by rw [hctx]
    omega
  have h2 : ¬ commits.length <
      (genPowers (chal (transcriptOf t points evals) openGammaLabel)
        evals.length).length := by
    rw [length_genPowers]
    omega
  simp only [RustResult.bind, curveMsm, if_neg h1, if_neg h2]
  rcases hg : S.powers_of_g2.get? 0 with _ | g2v
  · rw [List.get?_eq_none] at hg
    omega
  · simp only [listGetOrPanic, hg, RustResult.bind]
    exact ⟨_, rfl⟩

/-- C6: for every valid point-set index, the generic precomputed scheme's
`open` and `verify` return exactly the results of the base scheme's `open` and
`verify` on the indexed point set: the cached vanishing polynomial, G2
commitment and Lagrange context equal the values the base scheme recomputes. -/
theorem C6_precomp_delegates (inner : M1NoPrecomp F) (sets : List (List F))
    (P : M1Precomp F) (hP : M1Precomp.fromInner inner sets = .ok P)
    (chal : Transcript F → List Nat → F) (t : Transcript F)
    (evals polys : List (List F)) (commits : List F) (pf : F)
    (idx : Nat) (pts : List F) (hpts : sets.get? idx = some pts) :
    P.openProof chal t evals polys idx = inner.openProof chal t evals polys pts
    ∧ P.verify chal t commits idx evals pf
      = inner.verify chal t commits pts evals pf := by
  simp only [M1Precomp.fromInner] at hP
  rcases bind_eq_ok.mp hP with ⟨g2zs, hg2, h2⟩
  rcases bind_eq_ok.mp h2 with ⟨lcs, hlcs, h3⟩
  cases h3
  have hvget : (sets.map vanishingPolynomial).get? idx
      = some (vanishingPolynomial pts) := by
    rw [List.get?_map, hpts]
    rfl
  obtain ⟨g2zv, hg2get, hg2v⟩ := collect_ok_get hg2 hvget
  obtain ⟨ctx, hctxget, hctxv⟩ := collect_ok_get hlcs hpts
  constructor
  · simp only [M1Precomp.openProof, listGetOrPanic, hpts, hvget, RustResult.bind]
    rfl
  · simp only [M1Precomp.verify, listGetOrPanic, hpts, hctxget, hg2get,
      RustResult.bind]
    simp only [M1NoPrecomp.verify, hg2v, hctxv, RustResult.bind]

theorem C6_witness :
    preOne.openProof chalOne [] [[F3.t]] [[F3.t]] 0
      = PMP.M1NoPrecomp.openProof srs21 chalOne [] [[F3.t]] [[F3.t]] [F3.o]
    ∧ preOne.verify chalOne [] [F3.t] 0 [[F3.t]] F3.z
      = PMP.M1NoPrecomp.verify srs21 chalOne [] [F3.t] [F3.o] [[F3.t]] F3.z :=
  C6_precomp_delegates srs21 [[F3.o]] preOne (by decide) chalOne [] [[F3.t]]
    [[F3.t]] [F3.t] F3.z 0 [F3.o] (by decide)

theorem SplitEvalDomain_new_facts {ω : F} {bS nS : Nat} {sd : SplitEvalDomain F}
    (h : SplitEvalDomain.new ω bS nS = some sd) :
    sd.subgroups.length = nS
    ∧ ∀ sg ∈ sd.subgroups, sg.size = bS / nS ∧ sg.elements.length = bS / nS := by
  simp only [SplitEvalDomain.new] at h
  split at h
  · cases h
    constructor
    · simp [SplitEvalDomain.subgroups]
    · intro sg hsg
      simp only [SplitEvalDomain.subgroups] at hsg
      rcases List.mem_map.mp hsg with ⟨i, _, rfl⟩
      exact ⟨rfl, by simp⟩
  · cases h

theorem g2ZeroOf_ok_pos {inner : M1NoPrecomp F} {d : CosetDomain F} {w : F}
    (h : g2ZeroOf inner d.vanishingSparse = .ok w) :
    0 < inner.powers_of_g2.length := by
  by_contra h0
  have hg : inner.powers_of_g2.get? 0 = none :=
    List.get?_eq_none.mpr (by omega)
  simp only [g2ZeroOf, CosetDomain.vanishingSparse, List.foldl, hg,
    RustResult.bind] at h
  cases h

/-- C5: under `verify`'s structural preconditions, both the base scheme's
`verify` and the coset scheme's `verify` return `Ok(true)` or `Ok(false)` —
an invalid proof is reported as the value `false`, never as an `Err` (the
proof argument here is arbitrary). -/
theorem C5_verify_returns_bool :
    (∀ (S : M1NoPrecomp F) (chal : Transcript F → List Nat → F) (t : Transcript F)
       (commits points : List F) (evals : List (List F)) (pf : F),
       points.Nodup →
       points.length + 1 ≤ S.powers_of_g2.length →
       points.length ≤ S.powers_of_g1.length →
       (∀ e ∈ evals, e.length = points.length) →
       evals.length ≤ commits.length →
       ∃ b t2, S.verify chal t commits points evals pf = .ok (b, t2))
    ∧ (∀ (ω : F) (inner : M1NoPrecomp F) (bS nS : Nat) (Q : M1CyclPrecomp F)
       (chal : Transcript F → List Nat → F) (t : Transcript F)
       (commits : List F) (idx : Nat) (evals : List (List F)) (pf : F),
       M1CyclPrecomp.fromInner ω inner bS nS = .ok Q →
       idx < Q.point_set_groups.length →
       evals ≠ [] →
       (∀ e ∈ evals, e.length = bS / nS) →
       commits.length = evals.length →
       ∃ b t2, Q.verify chal t commits idx evals pf = .ok (b, t2)) := by
  constructor
  · intro S chal t commits points evals pf hnd hg2 hg1 hrows hcm
    obtain ⟨l, hl, hlen⟩ := linFactorProd_shape (F := F) points
    have hvplen : (vanishingPolynomial points).length = points.length + 1 := by
      show (linFactorProd points).length = _
      rw [hl]
      simp [hlen]
    have hc1 : ¬ S.powers_of_g2.length < (vanishingPolynomial points).length := by
      omega
    simp only [M1NoPrecomp.verify, curveMsm, if_neg hc1, RustResult.bind,
      newFromPoints_ok points hnd]
    obtain ⟨b, hb⟩ := verifyWith_total S chal t commits points evals pf
      ⟨points⟩ (dotList S.powers_of_g2 (vanishingPolynomial points)) rfl hrows hg1
      (by omega) hcm
    exact ⟨b, _, hb⟩
  · intro ω inner bS nS Q chal t commits idx evals pf hQ hidx hev hrows hcm
    unfold M1CyclPrecomp.fromInner at hQ
    by_cases hpow : (!isPowerOfTwo bS || !isPowerOfTwo nS) = true
    · rw [if_pos hpow] at hQ
      cases hQ
    · rw [if_neg hpow] at hQ
      have hpows : isPowerOfTwo bS = true ∧ isPowerOfTwo nS = true := by
        rcases hb : isPowerOfTwo bS <;> rcases hn : isPowerOfTwo nS <;>
          simp [hb, hn] at hpow ⊢
      have hnz : nS ≠ 0 := by
        have h2 := hpows.2
        simp only [isPowerOfTwo, Bool.and_eq_true, bne_iff_ne] at h2
        exact h2.1
      by_cases hlen1 : inner.powers_of_g1.length < bS
      · rw [if_pos hlen1] at hQ
        cases hQ
      · rw [if_neg hlen1] at hQ
        rcases hsd : SplitEvalDomain.new ω bS nS with _ | sd
        · rw [hsd] at hQ
          cases hQ
        · rw [hsd] at hQ
          rcases bind_eq_ok.mp hQ with ⟨g2zs, hg2, h2⟩
          cases h2
          obtain ⟨hsublen, hsgfacts⟩ := SplitEvalDomain_new_facts hsd
          have hidx' : idx < sd.subgroups.length := hidx
          have hg2zslen : g2zs.length = sd.subgroups.length := by
            have := collect_ok_length hg2
            simpa using this
          have hchk : checkVerifySizes commits evals (bS / nS) = .ok () := by
            unfold checkVerifySizes
            rw [if_neg (by omega), if_neg]
            intro hcontra
            rcases List.any_eq_true.mp hcontra with ⟨e, he, hbe⟩
            exact (bne_iff_ne).mp hbe (hrows e he)
          obtain ⟨sg, hsg⟩ : ∃ sg, sd.subgroups.get? idx = some sg := by
            rcases h : sd.subgroups.get? idx with _ | sg
            · rw [List.get?_eq_none] at h
              omega
            · exact ⟨sg, rfl⟩
          have hsgmem : sg ∈ sd.subgroups := List.get?_mem hsg
          obtain ⟨-, helem⟩ := hsgfacts sg hsgmem
          have hlc : linearCombination evals
              (genPowers (chal (transcriptOf t (evPoints sg) evals) openGammaLabel)
                evals.length)
              = some ((List.zipWith polySmul
                  (genPowers (chal (transcriptOf t (evPoints sg) evals) openGammaLabel)
                    evals.length) evals).foldr polyAdd []) :=
            linearCombination_eq evals _ hev
          have hifft : ¬ inner.powers_of_g1.length <
              (cosetIfft sg ((List.zipWith polySmul
                (genPowers (chal (transcriptOf t (evPoints sg) evals) openGammaLabel)
                  evals.length) evals).foldr polyAdd [])).length := by
            have hb := length_lagInterp_le sg.elements
              ((List.zipWith polySmul
                (genPowers (chal (transcriptOf t (evPoints sg) evals) openGammaLabel)
                  evals.length) evals).foldr polyAdd [])
            have hd : bS / nS ≤ bS := Nat.div_le_self bS nS
            simp only [cosetIfft]
            omega
          have hcmfit : ¬ commits.length <
              (genPowers (chal (transcriptOf t (evPoints sg) evals) openGammaLabel)
                evals.length).length := by
            rw [length_genPowers]
            omega
          obtain ⟨sg0, hsg0⟩ : ∃ sg0, sd.subgroups.get? 0 = some sg0 := by
            rcases h : sd.subgroups.get? 0 with _ | sg0
            · rw [List.get?_eq_none] at h
              omega
            · exact ⟨sg0, rfl⟩
          have hg2pos : 0 < inner.powers_of_g2.length := by
            have hvget0 : (sd.subgroups.map CosetDomain.vanishingSparse).get? 0
                = some sg0.vanishingSparse := by
              rw [List.get?_map, hsg0]
              rfl
            obtain ⟨w, _, hwok⟩ := collect_ok_get hg2 hvget0
            exact g2ZeroOf_ok_pos hwok
          obtain ⟨g2v, hgp⟩ : ∃ v, inner.powers_of_g2.get? 0 = some v := by
            rcases h : inner.powers_of_g2.get? 0 with _ | v
            · rw [List.get?_eq_none] at h
              omega
            · exact ⟨v, rfl⟩
          obtain ⟨zv, hgz⟩ : ∃ v, g2zs.get? idx = some v := by
            rcases h : g2zs.get? idx with _ | v
            · rw [List.get?_eq_none] at h
              omega
            · exact ⟨v, rfl⟩
          simp only [M1CyclPrecomp.verify, hchk, RustResult.bind, okOr, hsg,
            transcribePointsAndEvals, hlc, expectSome, curveMsm, if_neg hifft,
            if_neg hcmfit, listGetOrPanic, hgp, hgz]
          exact ⟨_, _, rfl⟩

theorem C5_witness :
    (∃ b t2, PMP.M1NoPrecomp.verify srs21 chalOne [] [F3.t] [F3.o] [[F3.t]] F3.z
      = .ok (b, t2))
    ∧ (∃ b t2, PMP.M1CyclPrecomp.verify cycl21 chalOne [] [F3.o] 0 [[F3.o, F3.t]] F3.z
      = .ok (b, t2)) :=
  ⟨(C5_verify_returns_bool (F := F3)).1 srs21 chalOne [] [F3.t] [F3.o] [[F3.t]] F3.z
      (by decide) (by decide) (by decide) (by decide) (by decide),
   (C5_verify_returns_bool (F := F3)).2 F3.t srs22 2 1 cycl21 chalOne [] [F3.o] 0
      [[F3.o, F3.t]] F3.z (by decide) (by decide) (by decide) (by decide) (by decide)⟩

/-! ### Evaluation algebra of the polynomial helpers -/

theorem polyEval_nil (x : F) : polyEval ([] : List F) x = 0 := rfl

theorem polyEval_cons (a : F) (p : List F) (x : F) :
    polyEval (a :: p) x = a + x * polyEval p x := rfl

theorem polyEval_polyAdd (p q : List F) (x : F) :
    polyEval (polyAdd p q) x = polyEval p x + polyEval q x := by
  induction p generalizing q with
  | nil => simp [polyAdd, polyEval_nil]
  | cons a p ih =>
    cases q with
    | nil => rw [polyAdd_nil_right, polyEval_nil, add_zero]
    | cons b q =>
      show polyEval ((a + b) :: polyAdd p q) x = _
      rw [polyEval_cons, polyEval_cons, polyEval_cons, ih q]
      ring

theorem polyEval_polySmul (c : F) (p : List F) (x : F) :
    polyEval (polySmul c p) x = c * polyEval p x := by
  induction p with
  | nil => simp [polySmul, polyEval_nil]
  | cons a p ih =>
    show polyEval (c * a :: polySmul c p) x = _
    rw [polyEval_cons, polyEval_cons, ih]
    ring

theorem polyEval_polyMul (p q : List F) (x : F) :
    polyEval (polyMul p q) x = polyEval p x * polyEval q x := by
  induction p with
  | nil => simp [polyMul, polyEval_nil]
  | cons a p ih =>
    show polyEval (polyAdd (polySmul a q) (0 :: polyMul p q)) x = _
    rw [polyEval_polyAdd, polyEval_polySmul, polyEval_cons, ih, polyEval_cons]
    ring

theorem polyEval_linFactorProd (roots : List F) (x : F) :
    polyEval (linFactorProd roots) x = (roots.map (fun z => x - z)).prod := by
  induction roots with
  | nil =>
    show polyEval [1] x = 1
    rw [polyEval_cons, polyEval_nil]
    ring
  | cons z rs ih =>
    show polyEval (polyMul [-z, 1] (linFactorProd rs)) x = _
    rw [polyEval_polyMul, ih]
    have h1 : polyEval [-z, 1] x = x - z := by
      rw [polyEval_cons, polyEval_cons, polyEval_nil]
      ring
    rw [h1, List.map_cons, List.prod_cons]

theorem vanishing_eval_mem (points : List F) (z : F) (hz : z ∈ points) :
    polyEval (vanishingPolynomial points) z = 0 := by
  show polyEval (linFactorProd points) z = 0
  rw [polyEval_linFactorProd]
  exact List.prod_eq_zero (List.mem_map.mpr ⟨z, hz, sub_self z⟩)

theorem polyEval_zip_smul_fold (s : List F) (ps : List (List F)) (x : F) :
    polyEval ((List.zipWith polySmul s ps).foldr polyAdd []) x
      = (List.zipWith (fun c p => c * polyEval p x) s ps).sum := by
  induction s generalizing ps with
  | nil => simp [polyEval_nil]
  | cons c s ih =>
    cases ps with
    | nil => simp [polyEval_nil]
    | cons p ps =>
      simp only [List.zipWith_cons_cons, List.foldr_cons, List.sum_cons]
      rw [polyEval_polyAdd, polyEval_polySmul, ih ps]

theorem getD_polyAdd (p q : List F) (j : Nat) :
    (polyAdd p q).getD j 0 = p.getD j 0 + q.getD j 0 := by
  induction p generalizing q j with
  | nil => simp [polyAdd]
  | cons a p ih =>
    cases q with
    | nil => rw [polyAdd_nil_right]; simp
    | cons b q =>
      show ((a + b) :: polyAdd p q).getD j 0 = _
      cases j with
      | zero => simp
      | succ j => simpa using ih q j

theorem getD_polySmul (c : F) (p : List F) (j : Nat) :
    (polySmul c p).getD j 0 = c * p.getD j 0 := by
  induction p generalizing j with
  | nil => simp [polySmul]
  | cons a p ih =>
    cases j with
    | zero => simp [polySmul]
    | succ j => simpa [polySmul] using ih j

theorem getD_zip_smul_fold (s : List F) (ps : List (List F)) (j : Nat) :
    ((List.zipWith polySmul s ps).foldr polyAdd []).getD j 0
      = (List.zipWith (fun c p => c * (p : List F).getD j 0) s ps).sum := by
  induction s generalizing ps with
  | nil => simp
  | cons c s ih =>
    cases ps with
    | nil => simp
    | cons p ps =>
      simp only [List.zipWith_cons_cons, List.foldr_cons, List.sum_cons]
      rw [getD_polyAdd, getD_polySmul, ih ps]

theorem getD_map_lt {α : Type} (f : α → F) (l : List α) (j : Nat) (d : α)
    (hj : j < l.length) :
    (l.map f).getD j 0 = f (l.getD j d) := by
  induction l generalizing j with
  | nil => simp at hj
  | cons a l ih =>
    cases j with
    | zero => simp
    | succ j => simpa using ih j (by simpa using hj)

theorem zipWith_take_left {α β γ : Type} (f : α → β → γ) :
    ∀ (s : List α) (l : List β) (k : Nat), l.length ≤ k →
      List.zipWith f (s.take k) l = List.zipWith f s l := by
  intro s
  induction s with
  | nil => simp
  | cons a s ih =>
    intro l k hk
    cases k with
    | zero =>
      have : l = [] := List.length_eq_zero.mp (Nat.le_zero.mp hk)
      subst this
      simp
    | succ k =>
      cases l with
      | nil => simp
      | cons b l =>
        simp only [List.take_succ_cons, List.zipWith_cons_cons]
        rw [ih l k (by simpa using hk)]

theorem take_genPowers (γ : F) (M k : Nat) (h : k ≤ M) :
    (genPowers γ M).take k = genPowers γ k := by
  simp only [genPowers, ← List.map_take, List.take_range]
  rw [Nat.min_eq_left h]

theorem zip_genPowers_truncate {β γ' : Type} (f : F → β → γ') (γ : F) (M k : Nat)
    (l : List β) (hlk : l.length ≤ k) (hkM : k ≤ M) :
    List.zipWith f (genPowers γ M) l = List.zipWith f (genPowers γ k) l := by
  rw [← zipWith_take_left f (genPowers γ M) l k hlk, take_genPowers γ M k hkM]

theorem sum_zip_mul_left {α β : Type} (c : F) (f : α → β → F) :
    ∀ (s : List α) (l : List β),
      c * (List.zipWith f s l).sum = (List.zipWith (fun a b => c * f a b) s l).sum := by
  intro s
  induction s with
  | nil => simp
  | cons a s ih =>
    intro l
    cases l with
    | nil => simp
    | cons b l =>
      simp only [List.zipWith_cons_cons, List.sum_cons, mul_add]
      rw [ih l]

theorem zipWith_fun_congr {α β γ' : Type} (f g : α → β → γ')
    (h : ∀ a b, f a b = g a b) :
    ∀ (s : List α) (l : List β), List.zipWith f s l = List.zipWith g s l := by
  intro s
  induction s with
  | nil => simp
  | cons a s ih =>
    intro l
    cases l with
    | nil => simp
    | cons b l => simp only [List.zipWith_cons_cons, h a b, ih l]

/-! ### Lagrange interpolation: node evaluation -/

theorem polyEval_foldr_polyAdd {α : Type} (L : List α) (f : α → List F) (x : F) :
    polyEval (L.foldr (fun a acc => polyAdd (f a) acc) []) x
      = (L.map (fun a => polyEval (f a) x)).sum := by
  induction L with
  | nil => simp [polyEval_nil]
  | cons a L ih =>
    simp only [List.foldr_cons, List.map_cons, List.sum_cons]
    rw [polyEval_polyAdd, ih]

theorem list_map_sum_single (f : Nat → F) :
    ∀ (L : List Nat), L.Nodup → ∀ m ∈ L, (∀ j ∈ L, j ≠ m → f j = 0) →
      (L.map f).sum = f m := by
  intro L
  induction L with
  | nil => intro _ m hm; simp at hm
  | cons a L ih =>
    intro hnd m hm hz
    rcases List.mem_cons.mp hm with rfl | hm'
    · simp only [List.map_cons, List.sum_cons]
      have : ∀ j ∈ L, f j = 0 := by
        intro j hj
        have hja : j ≠ m := by
          intro h
          subst h
          exact (List.nodup_cons.mp hnd).1 hj
        exact hz j (List.mem_cons_of_mem _ hj) hja
      rw [List.sum_eq_zero (by
        intro y hy
        rcases List.mem_map.mp hy with ⟨j, hj, rfl⟩
        exact this j hj), add_zero]
    · simp only [List.map_cons, List.sum_cons]
      have ha : f a = 0 := by
        apply hz a (List.mem_cons_self a L)
        intro h
        subst h
        exact (List.nodup_cons.mp hnd).1 hm'
      rw [ha, zero_add]
      exact ih (List.nodup_cons.mp hnd).2 m hm' fun j hj hjm =>
        hz j (List.mem_cons_of_mem _ hj) hjm

theorem getD_mem_of_lt (l : List F) (j : Nat) (h : j < l.length) :
    l.getD j 0 ∈ l := by
  induction l generalizing j with
  | nil => simp at h
  | cons a l ih =>
    cases j with
    | zero => simp
    | succ j => simpa using List.mem_cons_of_mem a (ih j (by simpa using h))

theorem getD_eq_some_getElem? (l : List F) (m : Nat) (h : m < l.length) :
    l[m]? = some (l.getD m 0) := by
  rw [List.getD_eq_getElem l 0 h]
  exact (List.getElem?_eq_some_getElem_iff l m h).mpr trivial

theorem nodup_getElem?_ne (l : List F) (i j : Nat) (hij : i ≠ j) (hnd : l.Nodup)
    {v : F} (hi : l[i]? = some v) (hj : l[j]? = some v) : False := by
  rcases List.getElem?_eq_some_iff.mp hi with ⟨hi', rfl⟩
  rcases List.getElem?_eq_some_iff.mp hj with ⟨hj', hv⟩
  exact hij ((List.Nodup.getElem_inj_iff hnd).mp hv.symm)

theorem getD_mem_eraseIdx_of_ne (l : List F) (j m : Nat) (hm : m < l.length)
    (hne : m ≠ j) : l.getD m 0 ∈ l.eraseIdx j := by
  rcases Nat.lt_or_ge m j with hmj | hge
  · have h1 : (l.eraseIdx j)[m]? = l[m]? := List.getElem?_eraseIdx_of_lt l j m hmj
    exact List.getElem?_mem (h1.trans (getD_eq_some_getElem? l m hm))
  · have hjm : j ≤ m - 1 := by omega
    have h1 : (l.eraseIdx j)[m - 1]? = l[m - 1 + 1]? :=
      List.getElem?_eraseIdx_of_ge l j (m - 1) hjm
    have hm1 : m - 1 + 1 = m := by omega
    rw [hm1] at h1
    exact List.getElem?_mem (h1.trans (getD_eq_some_getElem? l m hm))

theorem not_mem_eraseIdx_self (l : List F) (m : Nat) (hnd : l.Nodup)
    (hm : m < l.length) : l.getD m 0 ∉ l.eraseIdx m := by
  intro hmem
  rcases List.getElem?_of_mem hmem with ⟨k, hk⟩
  rcases Nat.lt_or_ge k m with hkm | hkm
  · have h1 : (l.eraseIdx m)[k]? = l[k]? := List.getElem?_eraseIdx_of_lt l m k hkm
    exact nodup_getElem?_ne l k m (by omega) hnd (h1 ▸ hk)
      (getD_eq_some_getElem? l m hm)
  · have h1 : (l.eraseIdx m)[k]? = l[k + 1]? := List.getElem?_eraseIdx_of_ge l m k hkm
    exact nodup_getElem?_ne l (k + 1) m (by omega) hnd (h1 ▸ hk)
      (getD_eq_some_getElem? l m hm)

theorem polyEval_lagInterp_node (pts ys : List F) (hnd : pts.Nodup)
    (m : Nat) (hm : m < pts.length) :
    polyEval (lagInterp pts ys) (pts.getD m 0) = ys.getD m 0 := by
  unfold lagInterp
  rw [polyEval_foldr_polyAdd]
  rw [list_map_sum_single _ (List.range pts.length) (List.nodup_range _)
    m (List.mem_range.mpr hm) ?_]
  · rw [polyEval_polySmul]
    have hnum : polyEval (lagBasisNumer pts m) (pts.getD m 0) = lagDenom pts m := by
      unfold lagBasisNumer lagDenom
      rw [polyEval_linFactorProd]
    rw [hnum]
    have hden : lagDenom pts m ≠ 0 := by
      unfold lagDenom
      intro h
      have h0 : (0 : F) ∈ (pts.eraseIdx m).map (fun z => pts.getD m 0 - z) :=
        List.prod_eq_zero_iff.mp h
      obtain ⟨z, hz, hfz⟩ := List.mem_map.mp h0
      have hz2 : pts.getD m 0 = z := sub_eq_zero.mp hfz
      subst hz2
      exact not_mem_eraseIdx_self pts m hnd hm hz
    field_simp
  · intro j hj hjm
    rw [polyEval_polySmul]
    have hnum0 : polyEval (lagBasisNumer pts j) (pts.getD m 0) = 0 := by
      unfold lagBasisNumer
      rw [polyEval_linFactorProd]
      apply List.prod_eq_zero
      exact List.mem_map.mpr
        ⟨pts.getD m 0, getD_mem_eraseIdx_of_ne pts j m hm (Ne.symm hjm), sub_self _⟩
    rw [hnum0, mul_zero]

/-! ### Uniqueness of low-degree interpolants, via Mathlib polynomials -/

theorem toPoly_eval (l : List F) (x : F) : (toPoly l).eval x = polyEval l x := by
  induction l with
  | nil => simp [toPoly, polyEval_nil]
  | cons a l ih =>
    simp [toPoly, polyEval_cons, ih]

theorem toPoly_natDegree_le (l : List F) : (toPoly l).natDegree ≤ l.length - 1 := by
  induction l with
  | nil => simp [toPoly]
  | cons a l ih =>
    show (Polynomial.C a + Polynomial.X * toPoly l).natDegree ≤ _
    cases l with
    | nil =>
      simp [toPoly]
    | cons b l' =>
      refine le_trans (Polynomial.natDegree_add_le _ _) ?_
      simp only [Polynomial.natDegree_C, List.length_cons]
      refine max_le (by omega) ?_
      refine le_trans (Polynomial.natDegree_mul_le) ?_
      have := ih
      simp only [List.length_cons] at this
      simp only [Polynomial.natDegree_X]
      omega

theorem polyEval_eq_of_agree (pts : List F) (hnd : pts.Nodup) (p1 p2 : List F)
    (h1 : p1.length ≤ pts.length) (h2 : p2.length ≤ pts.length)
    (hagree : ∀ z ∈ pts, polyEval p1 z = polyEval p2 z) (x : F) :
    polyEval p1 x = polyEval p2 x := by
  cases hpts : pts with
  | nil =>
    subst hpts
    have e1 : p1 = [] := List.length_eq_zero.mp (by simpa using h1)
    have e2 : p2 = [] := List.length_eq_zero.mp (by simpa using h2)
    subst e1; subst e2
    rfl
  | cons z0 rest =>
    have hn : 1 ≤ pts.length := by rw [hpts]; simp
    rw [← hpts] at *
    by_cases hP : toPoly p1 - toPoly p2 = 0
    · have hPP : toPoly p1 = toPoly p2 := sub_eq_zero.mp hP
      rw [← toPoly_eval, ← toPoly_eval, hPP]
    · exfalso
      have hroots : ∀ z ∈ pts, (toPoly p1 - toPoly p2).IsRoot z := by
        intro z hz
        simp [Polynomial.IsRoot, Polynomial.eval_sub, toPoly_eval, hagree z hz]
      have hsub : pts.toFinset ⊆ (toPoly p1 - toPoly p2).roots.toFinset := by
        intro z hz
        rw [List.mem_toFinset] at hz
        rw [Multiset.mem_toFinset, Polynomial.mem_roots hP]
        exact hroots z hz
      have hc1 : pts.toFinset.card = pts.length := List.toFinset_card_of_nodup hnd
      have hc2 : pts.toFinset.card ≤ (toPoly p1 - toPoly p2).roots.toFinset.card :=
        Finset.card_le_card hsub
      have hc3 : (toPoly p1 - toPoly p2).roots.toFinset.card
          ≤ Multiset.card (toPoly p1 - toPoly p2).roots :=
        Multiset.toFinset_card_le _
      have hc4 : Multiset.card (toPoly p1 - toPoly p2).roots
          ≤ (toPoly p1 - toPoly p2).natDegree :=
        Polynomial.card_roots' _
      have hc5 : (toPoly p1 - toPoly p2).natDegree ≤ pts.length - 1 := by
        refine le_trans (Polynomial.natDegree_sub_le _ _) ?_
        have d1 := toPoly_natDegree_le p1
        have d2 := toPoly_natDegree_le p2
        omega
      omega

/-! ### MSM over geometric SRS powers -/

theorem genPowers_succ (x : F) (n : Nat) :
    genPowers x (n + 1) = 1 :: (genPowers x n).map (fun s => x * s) := by
  unfold genPowers
  rw [List.range_succ_eq_map]
  simp only [List.map_cons, pow_zero, List.map_map]
  congr 1
  have hfe : ((fun i => x ^ i) ∘ Nat.succ : Nat → F) = fun i => x * x ^ i := by
    funext i
    simp [Function.comp, pow_succ, mul_comm]
  rw [hfe]
  apply List.map_congr_left
  intro i _
  simp [Function.comp]

theorem dotList_nil_right (bases : List F) : dotList bases [] = 0 := by
  simp [dotList]

theorem dotList_cons (b s : F) (bases scalars : List F) :
    dotList (b :: bases) (s :: scalars) = b * s + dotList bases scalars := by
  simp [dotList]

theorem dot_genCurve (x g : F) :
    ∀ (p : List F) (M : Nat), p.length ≤ M →
      dotList (genCurvePowers (genPowers x M) g) p = g * polyEval p x := by
  intro p
  induction p generalizing x g with
  | nil => intro M _; rw [dotList_nil_right, polyEval_nil, mul_zero]
  | cons a p ih =>
    intro M hM
    cases M with
    | zero => simp at hM
    | succ M =>
      rw [genPowers_succ]
      have hcp : genCurvePowers (1 :: (genPowers x M).map (fun s => x * s)) g
          = (g * 1) :: genCurvePowers (genPowers x M) (g * x) := by
        unfold genCurvePowers
        simp only [List.map_cons, List.map_map]
        congr 1
        apply List.map_congr_left
        intro s _
        simp [Function.comp]
        ring
      rw [hcp, dotList_cons, ih x (g * x) M (by simpa using hM), polyEval_cons]
      ring

theorem collect_eq_map {α β : Type} (f : α → RustResult β) (g : α → β) :
    ∀ (l : List α), (∀ a ∈ l, f a = .ok (g a)) → collect f l = .ok (l.map g) := by
  intro l
  induction l with
  | nil => intro _; rfl
  | cons a l ih =>
    intro h
    simp only [collect, h a (by simp), RustResult.bind,
      ih fun a ha => h a (by simp [ha])]
    rfl

/-- C2 counterexample: a concrete instance — one constant polynomial `2` over
`F3`, point set `{1}`, supplied evaluation `2` equal to the polynomial's true
value — where the batched polynomial exists, the division succeeds, and the
remainder is `[2]`, which is not the zero polynomial.  The claim that the
remainder "must be exactly zero" is false on the code. -/
theorem C2_counterexample :
    linearCombination [[F3.t]] (genPowers F3.o 2) = some [F3.t]
    ∧ ([[F3.t]] : List (List F3))
        = [[F3.t]].map (fun p => [F3.o].map (polyEval p))
    ∧ polyDivQR [F3.t] (vanishingPolynomial [F3.o]) = .ok ([], [F3.t])
    ∧ ¬ (∀ c ∈ [F3.t], c = (0 : F3)) := by
  refine ⟨by decide, by decide, by decide, by decide⟩

/-- C2 (amended): in `open`, when every supplied evaluation equals the
corresponding polynomial's value at the corresponding point, the remainder of
dividing the batched polynomial `f = Σ γ^i · polys[i]` by the vanishing
polynomial of the point set is not zero in general: it is the polynomial of
degree `< |points|` whose value at each point `j` is the γ-blended evaluation
`Σ γ^i · evals[i][j]` (the quantity verification cancels against the
interpolant). -/
theorem C2_remainder_is_blended_interpolant
    (points : List F) (polys evals : List (List F)) (γ : F) (m : Nat)
    (hev : evals = polys.map (fun p => points.map (polyEval p)))
    (fsum q r : List F)
    (hf : linearCombination polys (genPowers γ m) = some fsum)
    (hdiv : polyDivQR fsum (vanishingPolynomial points) = .ok (q, r)) :
    r.length ≤ points.length ∧
    ∀ j < points.length,
      polyEval r (points.getD j 0)
        = (List.zipWith (fun c (e : List F) => c * e.getD j 0)
            (genPowers γ m) evals).sum := by
  have hfs : fsum
      = (List.zipWith polySmul (genPowers γ m) polys).foldr polyAdd [] := by
    by_cases hemp : polys = []
    · subst hemp
      simp [linearCombination] at hf
    · rw [linearCombination_eq polys _ hemp] at hf
      exact (Option.some.injEq _ _ ▸ hf.symm : _)
  obtain ⟨l, hl, hlen⟩ := linFactorProd_shape (F := F) points
  have hvp : vanishingPolynomial points = l ++ [1] := hl
  rw [hvp] at hdiv
  obtain ⟨q', r', hdiv', hr', hq', heval'⟩ :=
    polyDivQR_of_shape (rfl : (l ++ [1] : List F) = l ++ [1]) fsum
  rw [hdiv] at hdiv'
  have hqr : q = q' ∧ r = r' := by simpa using hdiv'
  obtain ⟨rfl, rfl⟩ := hqr
  constructor
  · omega
  · intro j hj
    have hz0 : polyEval (l ++ [1]) (points.getD j 0) = 0 := by
      rw [← hvp]
      exact vanishing_eval_mem _ _ (getD_mem_of_lt points j hj)
    have hrj := heval' (points.getD j 0)
    rw [hz0, mul_zero, zero_add] at hrj
    rw [← hrj, hfs, polyEval_zip_smul_fold, hev, List.zipWith_map_right]
    apply congrArg List.sum
    apply zipWith_fun_congr
    intro c p
    rw [getD_map_lt (polyEval p) points j 0 hj]

theorem C2_witness :
    ([F3.t] : List F3).length ≤ ([F3.o] : List F3).length ∧
    ∀ j < ([F3.o] : List F3).length,
      polyEval [F3.t] (([F3.o] : List F3).getD j 0)
        = (List.zipWith (fun c (e : List F3) => c * e.getD j 0)
            (genPowers F3.o 2) [[F3.t]]).sum :=
  C2_remainder_is_blended_interpolant [F3.o] [[F3.t]] [[F3.t]] F3.o 2
    (by decide) [F3.t] [] [F3.t] (by decide) (by decide)

theorem blended_getD_eq_fsum_eval (points : List F) (polys evals : List (List F))
    (γ : F) (m k : Nat)
    (hev : evals = polys.map (fun p => points.map (polyEval p)))
    (hkm : polys.length ≤ k) (hk2 : k ≤ m) (j : Nat) (hj : j < points.length) :
    (List.zipWith (fun c (e : List F) => c * e.getD j 0) (genPowers γ k) evals).sum
      = polyEval ((List.zipWith polySmul (genPowers γ m) polys).foldr polyAdd [])
          (points.getD j 0) := by
  rw [polyEval_zip_smul_fold]
  rw [zip_genPowers_truncate (fun c p => c * polyEval p (points.getD j 0))
    γ m k polys hkm hk2]
  rw [hev, List.zipWith_map_right]
  apply congrArg List.sum
  apply zipWith_fun_congr
  intro c p
  rw [getD_map_lt (polyEval p) points j 0 hj]

/-- C1: for every SRS generated from a setup scalar, every point set of
distinct points within SRS capacity, and every non-empty batch of polynomials
of degree (and count) within SRS capacity, `open` on the true evaluations
followed by `verify` with the same points, evaluations and the polynomials'
commitments on an identically-initialized transcript returns `Ok(true)`. -/
theorem C1_round_trip (S : M1NoPrecomp F) (x g1 g2 : F) (maxCoeffs maxPts : Nat)
    (hS : S = M1NoPrecomp.newFromScalar x g1 g2 maxCoeffs maxPts)
    (chal : Transcript F → List Nat → F) (t : Transcript F)
    (points : List F) (polys evals : List (List F)) (cms : List F)
    (hnd : points.Nodup)
    (hpts : points.length ≤ maxPts)
    (hne : polys ≠ [])
    (hdeg : ∀ p ∈ polys, p.length ≤ maxCoeffs)
    (hcnt : polys.length ≤ max maxCoeffs (maxPts + 1))
    (hev : evals = polys.map (fun p => points.map (polyEval p)))
    (hcms : collect (fun p => S.commit p) polys = .ok cms) :
    ∃ pf t1 t2,
      S.openProof chal t evals polys points = .ok (pf, t1)
      ∧ S.verify chal t cms points evals pf = .ok (true, t2) := by
  have hG1 : S.powers_of_g1
      = genCurvePowers (genPowers x (max maxCoeffs (maxPts + 1))) g1 := by
    rw [hS]; rfl
  have hG2 : S.powers_of_g2 = genCurvePowers (genPowers x (maxPts + 1)) g2 := by
    rw [hS]
    show genCurvePowers
      ((genPowers x (max maxCoeffs (maxPts + 1))).take (maxPts + 1)) g2 = _
    rw [take_genPowers _ _ _ (le_max_right _ _)]
  have hmg1 : S.powers_of_g1.length = max maxCoeffs (maxPts + 1) := by
    rw [hG1, length_genCurvePowers, length_genPowers]
  have hmg2len : S.powers_of_g2.length = maxPts + 1 := by
    rw [hG2, length_genCurvePowers, length_genPowers]
  set T := transcriptOf t points evals with hT
  set γv := chal T openGammaLabel with hγ
  set fsumM := (List.zipWith polySmul (genPowers γv S.powers_of_g1.length)
    polys).foldr polyAdd [] with hfsumM
  obtain ⟨l, hl, hlen⟩ := linFactorProd_shape (F := F) points
  have hvp : vanishingPolynomial points = l ++ [1] := hl
  obtain ⟨q, r, hdiv, hrlen, hqlen, hQR⟩ :=
    polyDivQR_of_shape (rfl : (l ++ [1] : List F) = l ++ [1]) fsumM
  have hdeg1 : ∀ p ∈ polys, p.length ≤ S.powers_of_g1.length := by
    intro p hp
    rw [hmg1]
    exact le_trans (hdeg p hp) (le_max_left _ _)
  have hfsum_len : fsumM.length ≤ S.powers_of_g1.length :=
    length_zip_smul_fold_le _ _ _ hdeg1
  have hqfit : ¬ S.powers_of_g1.length < q.length := by omega
  have hopen : S.openProof chal t evals polys points
      = .ok (dotList S.powers_of_g1 q, T) := by
    rw [show S.openProof chal t evals polys points
      = S.openWithVanishingPoly chal t evals polys points
          (vanishingPolynomial points) from rfl]
    rw [openWithVanishing_unfold, linearCombination_eq polys _ hne]
    rw [← hT, ← hγ, ← hfsumM]
    simp only [okOr, RustResult.bind]
    rw [hvp, hdiv]
    simp only [RustResult.bind, curveMsm, if_neg hqfit]
  have hcommit : ∀ p ∈ polys, S.commit p = .ok (g1 * polyEval p x) := by
    intro p hp
    show curveMsm S.powers_of_g1 p = _
    unfold curveMsm
    rw [if_neg (by have := hdeg1 p hp; omega)]
    rw [hG1, dot_genCurve x g1 p (max maxCoeffs (maxPts + 1))
      (by have := hdeg1 p hp; rw [hmg1] at this; exact this)]
  have hcmsv : cms = polys.map (fun p => g1 * polyEval p x) := by
    rw [collect_eq_map (fun p => S.commit p) (fun p => g1 * polyEval p x)
      polys hcommit] at hcms
    have : cms = polys.map fun p => g1 * polyEval p x := by
      cases hcms
      rfl
    exact this
  have hvplen2 : (vanishingPolynomial points).length = points.length + 1 := by
    rw [hvp]
    simp [hlen]
  have hvpfit : ¬ S.powers_of_g2.length < (vanishingPolynomial points).length := by
    rw [hmg2len, hvplen2]
    omega
  set k := evals.length with hk
  have hkp : k = polys.length := by rw [hk, hev]; simp
  have hrows : ∀ e ∈ evals, e.length = points.length := by
    rw [hev]
    intro e he
    rcases List.mem_map.mp he with ⟨p, _, rfl⟩
    simp
  set blended := (List.zipWith polySmul (genPowers γv k) evals).foldr polyAdd []
    with hblended
  set R := lagInterp points blended with hR
  have hRlen : R.length ≤ points.length := length_lagInterp_le points blended
  have hM2 : maxPts + 1 ≤ max maxCoeffs (maxPts + 1) := le_max_right _ _
  have hRfit : ¬ S.powers_of_g1.length < R.length := by
    rw [hmg1]
    omega
  have hcmlen : cms.length = polys.length := by rw [hcmsv]; simp
  have hgamfit : ¬ cms.length < (genPowers γv k).length := by
    rw [length_genPowers, hcmlen, hkp]
    omega
  have hg2head : S.powers_of_g2.get? 0 = some (g2 * x ^ 0) := by
    rw [hG2]
    unfold genCurvePowers genPowers
    simp [List.get?_map, List.get?_range]
  have hverify : S.verify chal t cms points evals (dotList S.powers_of_g1 q)
      = .ok (decide ((dotList cms (genPowers γv k) - dotList S.powers_of_g1 R)
          * (g2 * x ^ 0)
          = dotList S.powers_of_g1 q
            * dotList S.powers_of_g2 (vanishingPolynomial points)), T) := by
    simp only [M1NoPrecomp.verify, curveMsm, if_neg hvpfit, RustResult.bind,
      newFromPoints_ok points hnd]
    rw [verifyWithLagCtx_unfold]
    rw [← hT, ← hγ, ← hk]
    rw [lagCombo_ok ⟨points⟩ evals _ hrows]
    rw [← hblended, ← hR]
    simp only [RustResult.bind, curveMsm, if_neg hRfit, if_neg hgamfit]
    simp only [listGetOrPanic, hg2head, RustResult.bind]
  have hkfit : k ≤ S.powers_of_g1.length := by
    rw [hkp, hmg1]
    exact hcnt
  have e_cm : dotList cms (genPowers γv k) = g1 * polyEval fsumM x := by
    rw [hcmsv]
    unfold dotList
    rw [List.zipWith_map_left]
    rw [hfsumM, polyEval_zip_smul_fold]
    rw [zip_genPowers_truncate (fun c p => c * polyEval p x) γv
      S.powers_of_g1.length k polys (le_of_eq hkp.symm) hkfit]
    rw [sum_zip_mul_left g1 (fun c p => c * polyEval p x) (genPowers γv k) polys]
    rw [List.zipWith_comm]
    apply congrArg List.sum
    apply zipWith_fun_congr
    intro p c
    ring
  have e_q : dotList S.powers_of_g1 q = g1 * polyEval q x := by
    rw [hG1, dot_genCurve x g1 q (max maxCoeffs (maxPts + 1)) (by omega)]
  have e_vp : dotList S.powers_of_g2 (vanishingPolynomial points)
      = g2 * polyEval (vanishingPolynomial points) x := by
    rw [hG2, dot_genCurve x g2 (vanishingPolynomial points) (maxPts + 1)
      (by omega)]
  have e_Rdot : dotList S.powers_of_g1 R = g1 * polyEval R x := by
    rw [hG1, dot_genCurve x g1 R (max maxCoeffs (maxPts + 1)) (by omega)]
  have e_R : ∀ y : F, polyEval R y = polyEval r y := by
    apply polyEval_eq_of_agree points hnd R r hRlen (by omega)
    intro z hz
    rcases List.mem_iff_getElem.mp hz with ⟨j, hjlt, hjv⟩
    have hzj : points.getD j 0 = z := by
      rw [List.getD_eq_getElem points 0 hjlt, hjv]
    subst hzj
    rw [hR, polyEval_lagInterp_node points blended hnd j hjlt]
    rw [hblended, getD_zip_smul_fold]
    rw [blended_getD_eq_fsum_eval points polys evals γv S.powers_of_g1.length k
      hev (le_of_eq hkp.symm) hkfit j hjlt]
    rw [← hfsumM]
    have hz0 : polyEval (l ++ [1]) (points.getD j 0) = 0 := by
      rw [← hvp]
      exact vanishing_eval_mem _ _ (getD_mem_of_lt points j hjlt)
    have hfj := hQR (points.getD j 0)
    rw [hz0, mul_zero, zero_add] at hfj
    exact hfj
  have hEq : (dotList cms (genPowers γv k) - dotList S.powers_of_g1 R)
      * (g2 * x ^ 0)
      = dotList S.powers_of_g1 q
        * dotList S.powers_of_g2 (vanishingPolynomial points) := by
    rw [e_cm, e_q, e_vp, e_Rdot, e_R x, pow_zero, hvp]
    linear_combination (g1 * g2) * (hQR x)
  refine ⟨dotList S.powers_of_g1 q, T, T, hopen, ?_⟩
  rw [hverify, decide_eq_true hEq]

theorem C1_witness :
    ∃ pf t1 t2,
      PMP.M1NoPrecomp.openProof srs21 chalOne [] [[F3.t]] [[F3.t]] [F3.o]
        = .ok (pf, t1)
      ∧ PMP.M1NoPrecomp.verify srs21 chalOne [] [F3.t] [F3.o] [[F3.t]] pf
        = .ok (true, t2) :=
  C1_round_trip srs21 F3.t F3.o F3.o 2 1 (by decide) chalOne [] [F3.o]
    [[F3.t]] [[F3.t]] [F3.t] (by decide) (by decide) (by decide) (by decide)
    (by decide) (by decide) (by decide)
